import Mathlib

/-!
# Verification of the nchnroutes pipeline

A shallow embedding, in Lean 4, of the core pipeline of the `nchnroutes`
package: the classifier (`IsMainlandChina`, `IsPrivateOrReserved`,
`FilterRanges`, `FilterRangesParallel`), the Rust-style aggregator and
normalizer (`rustStyleAggregated`, `rustStyleNormalized`,
`rustStyleAggregateAndNormalize`, `SmartMergeNonChinaCIDRs`), and the IPDB
trie extractor (`NewExtractor`, `ExtractAllRanges`, the IPv4/IPv6 walks).

Conventions of the embedding:
* IP addresses are pairs (family flag, integer value): a `Bool` that is true
  for IPv4 (Go: `ip.To4() != nil`; in this program IPv4 addresses are always
  built as 4-byte slices) together with a `Nat` holding the address value
  (Go `math/big.Int`, always non-negative here).  Indexing `ip[i]` on a
  4-byte (resp. 16-byte) address is `ipByte`.
* Go `big.Int` arithmetic is exact integer arithmetic; all values reaching
  the aggregator/normalizer are non-negative, so `Nat` is used, with care
  taken that every subtraction in the source is guarded so that Nat
  truncation agrees with the exact value (noted where it matters).
* Terminating `for` loops are embedded with explicit fuel where the
  decreasing quantity is evident (fuel bounds are chosen so that the fuel
  never runs out on the loop's actual iteration count); recursive trie
  walks get an explicit fuel parameter, and theorems quantify over fuel.
* I/O (progress printing, file writes) is irrelevant to the claims and is
  dropped.
-/

/-! ## Classifier (filter.go)

`IPRange` carries the fields of the Go struct that the classifier reads:
the label vector `Info`, and `StartIP`/`EndIP` as (family, value).  The
`CIDR`/`RawData`/`Type` fields are never read by the functions under
verification and are omitted. -/

structure IPRange where
  info : List String
  v4 : Bool
  startVal : Nat
  endVal : Nat
deriving DecidableEq

/-- Byte `i` (big-endian) of a 4-byte (if `v4`) or 16-byte address value,
modelling Go's `ip[i]` on the address slices this program constructs. -/
def ipByte (v4 : Bool) (val i : Nat) : Nat :=
  if v4 then val / 2 ^ (8 * (3 - i)) % 256 else val / 2 ^ (8 * (15 - i)) % 256

/-- Substring search on character lists: does `sub` occur inside `l`?
Models Go's `strings.Contains` (which is true iff the second argument
occurs as a contiguous substring of the first). -/
def subSearch (l sub : List Char) : Bool :=
  if sub.isPrefixOf l then true
  else
    match l with
    | [] => false
    | _ :: t => subSearch t sub

/-- Go `strings.Contains s sub`. -/
def goContains (s sub : String) : Bool :=
  subSearch s.toList sub.toList

/-- `IsMainlandChina` from filter.go: country is 中国/CN/China and the
region does not contain a Hong Kong / Macao / Taiwan marker. -/
def IsMainlandChina (info : List String) : Bool :=
  if info.length = 0 then false
  else
    let countryName := info.headD ""
    let regionName := if info.length > 1 then info.getD 1 "" else ""
    if countryName = "中国" || countryName = "CN" || countryName = "China" then
      if goContains regionName "香港" || goContains regionName "Hong Kong" ||
         goContains regionName "澳门" || goContains regionName "Macao" ||
         goContains regionName "Macau" ||
         goContains regionName "台湾" || goContains regionName "Taiwan" then false
      else true
    else false

/-- `IsPrivateOrReserved` from filter.go.  Only the start address is
inspected; the IPv4/IPv6 branch follows `startIP.To4() != nil`. -/
def IsPrivateOrReserved (v4 : Bool) (startVal endVal : Nat) : Bool :=
  if v4 then
    if ipByte true startVal 0 = 10 then true
    else if ipByte true startVal 0 = 172 &&
      (16 ≤ ipByte true startVal 1 && ipByte true startVal 1 ≤ 31) then true
    else if ipByte true startVal 0 = 192 && ipByte true startVal 1 = 168 then true
    else if ipByte true startVal 0 = 127 then true
    else if ipByte true startVal 0 = 169 && ipByte true startVal 1 = 254 then true
    else if 224 ≤ ipByte true startVal 0 && ipByte true startVal 0 ≤ 239 then true
    else if 240 ≤ ipByte true startVal 0 then true
    else if ipByte true startVal 0 = 0 then true
    else false
  else
    if startVal = 1 then true
    else if ipByte false startVal 0 = 0xfe &&
      ipByte false startVal 1 &&& 0xc0 = 0x80 then true
    else if ipByte false startVal 0 &&& 0xfe = 0xfc then true
    else if ipByte false startVal 0 = 0xff then true
    else if startVal = 0 then true
    else false

/-- `isHongKong` from filter.go. -/
def isHongKong (info : List String) : Bool :=
  if info.length = 0 then false
  else
    let countryName := info.headD ""
    let regionName := if info.length > 1 then info.getD 1 "" else ""
    (countryName = "中国" || countryName = "CN" || countryName = "China") &&
      (goContains regionName "香港" || goContains regionName "Hong Kong")

/-- `isMacao` from filter.go. -/
def isMacao (info : List String) : Bool :=
  if info.length = 0 then false
  else
    let countryName := info.headD ""
    let regionName := if info.length > 1 then info.getD 1 "" else ""
    (countryName = "中国" || countryName = "CN" || countryName = "China") &&
      (goContains regionName "澳门" || goContains regionName "Macao" ||
       goContains regionName "Macau")

/-- `isTaiwan` from filter.go. -/
def isTaiwan (info : List String) : Bool :=
  if info.length = 0 then false
  else
    let countryName := info.headD ""
    let regionName := if info.length > 1 then info.getD 1 "" else ""
    (countryName = "中国" || countryName = "CN" || countryName = "China") &&
      (goContains regionName "台湾" || goContains regionName "Taiwan")

/-- The `FilterStats` struct. -/
structure FilterStats where
  totalRanges : Nat
  chinaFiltered : Nat
  privateFiltered : Nat
  hongKongKept : Nat
  macaoKept : Nat
  taiwanKept : Nat
  otherKept : Nat
  chinaCIDRsSaved : Nat
deriving DecidableEq

def emptyStats : FilterStats := ⟨0, 0, 0, 0, 0, 0, 0, 0⟩

def incChina (s : FilterStats) : FilterStats :=
  { s with chinaFiltered := s.chinaFiltered + 1 }

def incPrivate (s : FilterStats) : FilterStats :=
  { s with privateFiltered := s.privateFiltered + 1 }

/-- The HK/MO/TW/Other bucket counting of `FilterRanges` (the `else` arm
of the mainland test; note the source increments the bucket before the
private/reserved test). -/
def incBucket (r : IPRange) (s : FilterStats) : FilterStats :=
  if isHongKong r.info then { s with hongKongKept := s.hongKongKept + 1 }
  else if isMacao r.info then { s with macaoKept := s.macaoKept + 1 }
  else if isTaiwan r.info then { s with taiwanKept := s.taiwanKept + 1 }
  else { s with otherKept := s.otherKept + 1 }

/-- The body of `FilterRanges`' loop, processing records left to right.
Recursing on the tail and prepending preserves the source's append order.
Returns (filtered, chinaRanges, stats) with `totalRanges` and
`chinaCIDRsSaved` still 0 (they are set by the `FilterRanges` wrapper,
exactly as the source sets them outside the loop). -/
def filterRangesCore : List IPRange → List IPRange × List IPRange × FilterStats
  | [] => ([], [], emptyStats)
  | r :: rest =>
    let p := filterRangesCore rest
    if IsMainlandChina r.info then
      if IsPrivateOrReserved r.v4 r.startVal r.endVal then
        (p.1, p.2.1, incChina p.2.2)
      else
        (p.1, r :: p.2.1, incChina p.2.2)
    else
      if IsPrivateOrReserved r.v4 r.startVal r.endVal then
        (p.1, p.2.1, incPrivate (incBucket r p.2.2))
      else
        (r :: p.1, p.2.1, incBucket r p.2.2)

/-- `FilterRanges` from filter.go: returns (filtered non-mainland ranges,
mainland-China ranges, statistics). -/
def FilterRanges (ranges : List IPRange) : List IPRange × List IPRange × FilterStats :=
  let p := filterRangesCore ranges
  (p.1, p.2.1,
    { p.2.2 with totalRanges := ranges.length, chinaCIDRsSaved := p.2.1.length })

/-- A concrete mainland-labelled IPv4 range (1.0.0.0 - 1.0.0.255), used by
witnesses. -/
def exMainland : IPRange := ⟨["中国", "北京"], true, 16777216, 16777471⟩

/-- A concrete Hong-Kong-labelled IPv4 range (1.0.1.0 - 1.0.1.255), used by
witnesses. -/
def exHongKong : IPRange := ⟨["中国", "香港"], true, 16777472, 16777727⟩

/-! ## Aggregator and normalizer (merger.go)

Intervals and CIDRs are over exact integers (`big.Int` in the source,
`Nat` here; all values in this program are non-negative).  An aggregated
range is a pair (first, last) of address values, inclusive.  A CIDR is a
pair (start value, prefix length); for family width W its address interval
is `[start, start + 2^(W-plen) - 1]`. -/

/-- Fuel-indexed binary length: `bitLenAux fuel n` is the bit length of
`n` whenever `n ≤ fuel` (each step halves `n`, so `n` steps always
suffice).  Models `big.Int.BitLen`. -/
def bitLenAux : Nat → Nat → Nat
  | 0, _ => 0
  | fuel + 1, n => if n = 0 then 0 else bitLenAux fuel (n / 2) + 1

/-- `big.Int.BitLen`. -/
def bitLen (n : Nat) : Nat := bitLenAux n n

/-- `bigIntLog2` from merger.go: 0 for `n ≤ 0`, else `BitLen(n) - 1`. -/
def bigIntLog2 (n : Nat) : Nat := if n = 0 then 0 else bitLen n - 1

/-- The counting loop of `bigIntTrailingZeros`: count low zero bits,
stopping when the bit is 1 or when the count reaches 128 (the source's
explicit cap). -/
def tzFuel : Nat → Nat → Nat
  | 0, _ => 0
  | fuel + 1, n => if n % 2 = 0 then tzFuel fuel (n / 2) + 1 else 0

/-- `bigIntTrailingZeros` from merger.go: 0 for `n = 0`, else the number
of trailing zero bits capped at 128. -/
def goTrailingZeros (n : Nat) : Nat := if n = 0 then 0 else tzFuel 128 n

/-- `createCIDRFromDecimalRange`: `decimalToIP` keeps the low W bits of
the start (`% 2^W`), and `startIP.Mask(mask)` zeroes the host bits; the
result is the pair (masked start value, prefix length). -/
def mkCIDR (W first plen : Nat) : Nat × Nat :=
  (first % 2 ^ W / 2 ^ (W - plen) * 2 ^ (W - plen), plen)

/-- The `minPower` computed by one iteration of `rustStyleNormalized`'s
inner loop: `min(lengthLog2, firstTrailingZeros)` where
`firstTrailingZeros` is `maxBits` (= W) for `first = 0` and
`bigIntTrailingZeros(first)` otherwise. -/
def bChoice (W first length : Nat) : Nat :=
  min (bigIntLog2 length) (if first = 0 then W else goTrailingZeros first)

/-- The inner loop of `rustStyleNormalized` with explicit fuel: while
`length > 0`, emit the CIDR of prefix length `W - minPower` at `first`
and continue at `first + b`, `length - b` with `b = 2^minPower`.  Each
iteration removes `b ≥ 1` addresses, so fuel `length` never runs out. -/
def normLoopF : Nat → Nat → Nat → Nat → List (Nat × Nat)
  | 0, _, _, _ => []
  | fuel + 1, W, first, length =>
    if length = 0 then []
    else
      mkCIDR W first (W - bChoice W first length) ::
        normLoopF fuel W (first + 2 ^ bChoice W first length)
          (length - 2 ^ bChoice W first length)

/-- The per-interval CIDR decomposition of `rustStyleNormalized`. -/
def normLoop (W first length : Nat) : List (Nat × Nat) :=
  normLoopF length W first length

/-- `rustStyleNormalized` from merger.go, over aggregated (first,last)
pairs.  The full-address-space special case (`first = 0 ∧ length = 0`,
where `length = last + 1 - first`) emits the single /0 CIDR and breaks
out of the whole loop, dropping any remaining ranges; on the program's
non-negative values `length = last + 1 ≥ 1` whenever `first = 0`, so the
branch is unreachable, exactly as in the source. -/
def rustStyleNormalized (W : Nat) : List (Nat × Nat) → List (Nat × Nat)
  | [] => []
  | r :: rest =>
    if r.1 = 0 ∧ r.2 + 1 - r.1 = 0 then [(0, 0)]
    else normLoop W r.1 (r.2 + 1 - r.1) ++ rustStyleNormalized W rest

/-- The coalescing loop of `rustStyleAggregated`: Go condition
`max(first, 1) - 1 ≤ last_range.last` (saturating at zero); on a merge
the accumulated range keeps its first and takes the max of the lasts. -/
def aggLoop : Nat × Nat → List (Nat × Nat) → List (Nat × Nat)
  | lastR, [] => [lastR]
  | lastR, c :: rest =>
    if max c.1 1 - 1 ≤ lastR.2 then
      aggLoop (lastR.1, max lastR.2 c.2) rest
    else
      lastR :: aggLoop c rest

/-- The body of `rustStyleAggregated` after the decimal-pair conversion:
start the coalescing loop from the first pair. -/
def aggCore : List (Nat × Nat) → List (Nat × Nat)
  | [] => []
  | p :: rest => aggLoop p rest

instance : IsTotal IPRange (fun a b => a.startVal ≤ b.startVal) :=
  ⟨fun a b => Nat.le_total a.startVal b.startVal⟩

instance : IsTrans IPRange (fun a b => a.startVal ≤ b.startVal) :=
  ⟨fun _ _ _ => Nat.le_trans⟩

/-- `rustStyleAggregated` from merger.go: sort the ranges ascending by
start address (Go `sort.Slice` with `compareIPs(...) < 0`; modelled with a
sort wrt start value), convert to (first, last) integer pairs
(`ipToDecimal` is exact and never nil on the embedded values), then
coalesce. -/
def rustStyleAggregated (ranges : List IPRange) : List (Nat × Nat) :=
  if ranges.isEmpty then []
  else
    aggCore ((List.insertionSort (fun a b : IPRange => a.startVal ≤ b.startVal)
      ranges).map (fun r => (r.startVal, r.endVal)))

/-- `rustStyleAggregateAndNormalize` from merger.go. -/
def rustStyleAggregateAndNormalize (W : Nat) (ranges : List IPRange) : List (Nat × Nat) :=
  if ranges.isEmpty then []
  else rustStyleNormalized W (rustStyleAggregated ranges)

/-- `SmartMergeNonChinaCIDRs` from merger.go: aggregates and normalizes
the two non-China lists (IPv4 with W = 32, IPv6 with W = 128).  The
`allIPv4`/`allIPv6` arguments are accepted but never read. -/
def SmartMergeNonChinaCIDRs (allIPv4 allIPv6 nonChinaIPv4 nonChinaIPv6 : List IPRange) :
    List (Nat × Nat) × List (Nat × Nat) :=
  (rustStyleAggregateAndNormalize 32 nonChinaIPv4,
   rustStyleAggregateAndNormalize 128 nonChinaIPv6)

/-- The three ranges of the spec scenario S4 (1.0.0.0-1.0.0.255,
1.0.1.0-1.0.1.255, 1.0.3.0-1.0.3.255), used by C4. -/
def exAggInput : List IPRange :=
  [⟨[], true, 16777216, 16777471⟩, ⟨[], true, 16777472, 16777727⟩,
   ⟨[], true, 16777984, 16778239⟩]

/-! ## IPDB trie extractor (extractor.go)

The database body is a byte list; nodes are 8 bytes (two big-endian
4-byte child pointers); a leaf pointer `p ≥ nodeCount` resolves at byte
offset `(p - nodeCount) + 8*nodeCount` to a 2-byte big-endian length
followed by that many payload bytes.  Out-of-bounds reads in Go would
index a slice; the model reads bytes with a 0 default (`getD`), keeping
exactly the source's explicit bounds checks. -/

/-- The metadata fields of the descriptor that extraction reads
(`NodeCount` and `IPVersion`; the other JSON fields are never used by the
extraction path). -/
structure MetaData where
  nodeCount : Nat
  ipVersion : Nat
deriving DecidableEq

structure IPDBExtractor where
  data : List Nat
  nodeCount : Nat
  v4offset : Nat
  meta : MetaData
deriving DecidableEq

/-- `binary.BigEndian.Uint16` at an offset. -/
def be16 (data : List Nat) (off : Nat) : Nat :=
  data.getD off 0 * 256 + data.getD (off + 1) 0

/-- `binary.BigEndian.Uint32` at an offset. -/
def be32 (data : List Nat) (off : Nat) : Nat :=
  ((data.getD off 0 * 256 + data.getD (off + 1) 0) * 256 +
    data.getD (off + 2) 0) * 256 + data.getD (off + 3) 0

/-- `readNode` from extractor.go. -/
def readNode (e : IPDBExtractor) (node index : Nat) : Nat :=
  be32 e.data (node * 8 + index * 4)

/-- `resolve` from extractor.go: returns `none` exactly where the source
returns its "database error" (leaf offset at or past the end of the body,
or the 2-byte length running past the end). -/
def resolve (e : IPDBExtractor) (node : Nat) : Option (List Nat) :=
  let resolved := node - e.nodeCount + e.nodeCount * 8
  if e.data.length ≤ resolved then none
  else
    let size := be16 e.data resolved
    if e.data.length < resolved + 2 + size then none
    else some ((e.data.drop (resolved + 2)).take size)

/-- A record emitted by the trie walks: the bit path of the leaf plus the
prefix start/end values and length computed by `pathToCIDR` /
`calculateEndIP`, and the raw label bytes. -/
structure ExtractedRange where
  path : List Bool
  startVal : Nat
  endVal : Nat
  plen : Nat
  raw : List Nat
deriving DecidableEq

/-- The address value of a bit path (bit i of the path is bit `W-1-i` of
the value), as built by `pathToCIDR`. -/
def pathVal (W : Nat) (path : List Bool) : Nat :=
  (path.foldl (fun acc b => acc * 2 + (if b then 1 else 0)) 0) * 2 ^ (W - path.length)

/-- `pathToCIDR` + `calculateEndIP`: start value, end value (host bits
set), prefix length. -/
def pathToRange (v4 : Bool) (path : List Bool) (raw : List Nat) : ExtractedRange :=
  ⟨path, pathVal (if v4 then 32 else 128) path,
    pathVal (if v4 then 32 else 128) path +
      2 ^ ((if v4 then 32 else 128) - path.length) - 1,
    path.length, raw⟩

/-- `traverseIPv4Node` from extractor.go, with explicit recursion fuel.
On a leaf whose `resolve` fails, the source does `return` without
reporting anything: the leaf contributes no range and the walk goes on. -/
def traverseIPv4Node (e : IPDBExtractor) : Nat → Nat → List Bool → List ExtractedRange
  | 0, _, _ => []
  | fuel + 1, node, path =>
    if e.nodeCount ≤ node then
      match resolve e node with
      | none => []
      | some bytes => [pathToRange true path bytes]
    else
      (if readNode e node 0 ≠ 0 then
        traverseIPv4Node e fuel (readNode e node 0) (path ++ [false]) else []) ++
      (if readNode e node 1 ≠ 0 then
        traverseIPv4Node e fuel (readNode e node 1) (path ++ [true]) else [])

/-- `isIPv4MappedPath` from extractor.go: at least 96 bits, the first 80
all zero and the next 16 all one. -/
def isIPv4MappedPath (path : List Bool) : Bool :=
  if path.length < 96 then false
  else ((path.take 80).all (fun b => b = false)) &&
    (((path.drop 80).take 16).all (fun b => b = true))

/-- `traverseIPv6NodeFromRoot` from extractor.go, with explicit fuel.
The whole subtree at depth 96 under the IPv4-mapped prefix is skipped,
and a leaf is emitted only if its path is not IPv4-mapped.  (The
source's vestigial "all zeros, depth ≥ 70" branch has an empty body and
is omitted.) -/
def traverseIPv6NodeFromRoot (e : IPDBExtractor) :
    Nat → Nat → List Bool → List ExtractedRange
  | 0, _, _ => []
  | fuel + 1, node, path =>
    if path.length = 96 ∧ isIPv4MappedPath path then []
    else if e.nodeCount ≤ node then
      if isIPv4MappedPath path then []
      else
        match resolve e node with
        | none => []
        | some bytes => [pathToRange false path bytes]
    else
      (if readNode e node 0 ≠ 0 then
        traverseIPv6NodeFromRoot e fuel (readNode e node 0) (path ++ [false]) else []) ++
      (if readNode e node 1 ≠ 0 then
        traverseIPv6NodeFromRoot e fuel (readNode e node 1) (path ++ [true]) else [])

/-- `calculateV4Offset`: from node 0, descend 96 levels taking child 0
for the first 80 and child 1 for the next 16, stopping early when the
node index leaves the internal range (the fold keeps the node unchanged
after that point, matching the loop condition `node < nodeCount`). -/
def calcV4Offset (data : List Nat) (nodeCount : Nat) : Nat :=
  (List.range 96).foldl
    (fun node i =>
      if node < nodeCount then
        be32 data (node * 8 + (if 80 ≤ i then 1 else 0) * 4)
      else node) 0

/-- `ExtractAllRanges` from extractor.go: walks the IPv4 trie when bit 0
of `ip_version` is set and the IPv6 trie (from node 0) when bit 1 is set.
The returned error is the literal `nil` of the source's final
`return ipv4Ranges, ipv6Ranges, nil`. -/
def ExtractAllRanges (e : IPDBExtractor) (fuel : Nat) :
    List ExtractedRange × List ExtractedRange × Option String :=
  ((if e.meta.ipVersion &&& 1 ≠ 0 then traverseIPv4Node e fuel e.v4offset [] else []),
   (if e.meta.ipVersion &&& 2 ≠ 0 then traverseIPv6NodeFromRoot e fuel 0 [] else []),
   none)

/-- Outcome of `NewExtractor`: a Go run-time panic (out-of-range slice
expression), an error return, or an extractor. -/
inductive OpenResult where
  | crash : OpenResult
  | goError : OpenResult
  | ok : IPDBExtractor → OpenResult
deriving DecidableEq

/-- The capacity of the buffer `os.ReadFile` returns for the given file
content: the file size plus one, raised to at least 512.  The backing
array is allocated zeroed, so the bytes between the content length and
the capacity read as zero. -/
def readFileCap (body : List Nat) : Nat := max 512 (body.length + 1)

/-- `NewExtractor` from extractor.go (the file read is abstracted to the
byte content; JSON decoding of the descriptor is abstracted to a
`decodeMeta` parameter).  Go slice expressions on a slice are bounded by
its capacity, not its length, and they read the zero-padded backing
store: `body[0:4]` therefore always succeeds (capacity ≥ 512; `be32`'s
zero-default reads model the padding); `body[4:4+metaLength]` yields the
zero-padded descriptor bytes and panics exactly when `4 + metaLength`
exceeds the capacity; and the final `body[4+metaLength:]` panics when
`4 + metaLength` exceeds the content length (reachable only if the
decoder accepts the zero-padded descriptor).  Both panic points are
modelled as `crash`. -/
def NewExtractor (decodeMeta : List Nat → Option MetaData) (body : List Nat) :
    OpenResult :=
  let metaLength := be32 body 0
  if readFileCap body < 4 + metaLength then OpenResult.crash
  else
    match decodeMeta (((body ++ List.replicate (readFileCap body) 0).drop 4).take
        metaLength) with
    | none => OpenResult.goError
    | some meta =>
      if body.length < 4 + metaLength then OpenResult.crash
      else
        OpenResult.ok ⟨body.drop (4 + metaLength), meta.nodeCount,
          calcV4Offset (body.drop (4 + metaLength)) meta.nodeCount, meta⟩

/-- Big-endian 4-byte encoding, for building concrete trie bodies. -/
def be32bytes (n : Nat) : List Nat :=
  [n / 16777216 % 256, n / 65536 % 256, n / 256 % 256, n % 256]

/-- Node `i` of the concrete 97-node trie used for C3: nodes 0..79 chain
left, 80..95 chain right (so the 96-step descent lands on node 96), and
node 96 has a resolvable left leaf (pointer 98) and a right leaf pointer
2000 that resolves far past the end of the body. -/
def c3nodeBytes (i : Nat) : List Nat :=
  if i < 80 then be32bytes (i + 1) ++ be32bytes 0
  else if i < 96 then be32bytes 0 ++ be32bytes (i + 1)
  else be32bytes 98 ++ be32bytes 2000

/-- The concrete database body for C3: 97 nodes (776 bytes) followed by a
filler byte and one length-prefixed 2-byte payload ("US") at offset 777,
which is where leaf pointer 98 resolves. -/
def c3data : List Nat :=
  (List.range 97).flatMap c3nodeBytes ++ [0, 0, 2, 85, 83]

/-- The extractor state NewExtractor would build on `c3data` with
node_count 97 and ip_version 1 (IPv4 only). -/
def c3extractor : IPDBExtractor :=
  ⟨c3data, 97, calcV4Offset c3data 97, ⟨97, 1⟩⟩

/-- A one-node IPv6-only trie whose root's left child is a resolvable
leaf, used as the C6 witness. -/
def c6extractor : IPDBExtractor :=
  ⟨[0, 0, 0, 2, 0, 0, 0, 0, 0, 0, 1, 65], 1, 0, ⟨1, 2⟩⟩

/-! ## Parallel classification (filter.go, FilterRangesParallel)

The source shards the input on contiguous index ranges, runs
`FilterRanges` on each chunk in its own goroutine, and collects the
results from an unbuffered-order channel: results are appended in the
order they arrive, which is scheduler-dependent.  The model makes that
explicit: `arrival` is the order in which worker results are received;
any permutation of `0 .. numWorkers-1` is a possible schedule. -/

/-- The statistics merge in the collection loop: every counter except
`TotalRanges` is summed (`TotalRanges` is set once to the input length
before the loop and never added to). -/
def addStats (s t : FilterStats) : FilterStats :=
  ⟨s.totalRanges, s.chinaFiltered + t.chinaFiltered,
   s.privateFiltered + t.privateFiltered, s.hongKongKept + t.hongKongKept,
   s.macaoKept + t.macaoKept, s.taiwanKept + t.taiwanKept,
   s.otherKept + t.otherKept, s.chinaCIDRsSaved + t.chinaCIDRsSaved⟩

/-- Worker `i`'s chunk `ranges[start:end]`: `start = i*chunkSize`, and
`end = start+chunkSize` except that the last worker takes the rest. -/
def chunkAt (ranges : List IPRange) (nw cs i : Nat) : List IPRange :=
  if i = nw - 1 then ranges.drop (i * cs) else (ranges.drop (i * cs)).take cs

/-- `FilterRangesParallel` from filter.go.  `w` models
`runtime.NumCPU()` (≥ 1), capped at the input length; `chunkSize` is
`len/numWorkers`, bumped to 1 when zero; `arrival` is the channel
receive order over the workers. -/
def FilterRangesParallel (w : Nat) (arrival : List Nat) (ranges : List IPRange) :
    List IPRange × List IPRange × FilterStats :=
  if ranges.isEmpty then (ranges, [], ⟨0, 0, 0, 0, 0, 0, 0, 0⟩)
  else
    (arrival.map (fun i => FilterRanges (chunkAt ranges (min w ranges.length)
        (if ranges.length / min w ranges.length = 0 then 1
         else ranges.length / min w ranges.length) i))).foldl
      (fun acc res => (acc.1 ++ res.1, acc.2.1 ++ res.2.1, addStats acc.2.2 res.2.2))
      ([], [], ⟨ranges.length, 0, 0, 0, 0, 0, 0, 0⟩)

/-- Two kept (non-mainland, non-reserved) IPv4 ranges, used to exhibit
the arrival-order dependence of `FilterRangesParallel`. -/
def exPar : List IPRange :=
  [⟨["US"], true, 16777216, 16777471⟩, ⟨["Japan"], true, 33554432, 33554687⟩]

/-! ## C1: no mainland leak -/

theorem hk_not_mainland (info : List String) (h : isHongKong info = true) :
    IsMainlandChina info = false := by
  unfold isHongKong at h
  unfold IsMainlandChina
  by_cases h0 : info.length = 0
  · simp [h0] at h
  · simp only [h0, if_false] at h ⊢
    rw [Bool.and_eq_true] at h
    obtain ⟨hc, hr⟩ := h
    rw [Bool.or_eq_true] at hr
    rcases hr with hg | hg <;> simp_all

theorem mo_not_mainland (info : List String) (h : isMacao info = true) :
    IsMainlandChina info = false := by
  unfold isMacao at h
  unfold IsMainlandChina
  by_cases h0 : info.length = 0
  · simp [h0] at h
  · simp only [h0, if_false] at h ⊢
    rw [Bool.and_eq_true] at h
    obtain ⟨hc, hr⟩ := h
    simp only [Bool.or_eq_true] at hr
    rcases hr with (hg | hg) | hg <;> simp_all

theorem tw_not_mainland (info : List String) (h : isTaiwan info = true) :
    IsMainlandChina info = false := by
  unfold isTaiwan at h
  unfold IsMainlandChina
  by_cases h0 : info.length = 0
  · simp [h0] at h
  · simp only [h0, if_false] at h ⊢
    rw [Bool.and_eq_true] at h
    obtain ⟨hc, hr⟩ := h
    rw [Bool.or_eq_true] at hr
    rcases hr with hg | hg <;> simp_all

theorem filterRangesCore_fst (ranges : List IPRange) :
    (filterRangesCore ranges).1 =
      ranges.filter
        (fun r => !IsMainlandChina r.info &&
          !IsPrivateOrReserved r.v4 r.startVal r.endVal) := by
  induction ranges with
  | nil => rfl
  | cons r rest ih =>
    by_cases hm : IsMainlandChina r.info
    · by_cases hp : IsPrivateOrReserved r.v4 r.startVal r.endVal <;>
        simp [filterRangesCore, hm, hp, ih, List.filter_cons]
    · by_cases hp : IsPrivateOrReserved r.v4 r.startVal r.endVal <;>
        simp [filterRangesCore, hm, hp, ih, List.filter_cons]

/-- C1: for every input list, a range appears in `FilterRanges`' filtered
(non-mainland) output iff its label is not mainland-China and its start
address lies in no reserved block; the emitted set is exactly
HongKong ∪ Macao ∪ Taiwan ∪ Other minus Reserved; and (for pairwise
address-disjoint inputs, as the trie extractor produces) it contains no
address of any mainland-classified input range. -/
theorem FilterRanges_no_mainland_leak (ranges : List IPRange) :
    (FilterRanges ranges).1 =
      ranges.filter (fun r => !IsMainlandChina r.info &&
        !IsPrivateOrReserved r.v4 r.startVal r.endVal) ∧
    (∀ r ∈ (FilterRanges ranges).1,
      IsMainlandChina r.info = false ∧
      IsPrivateOrReserved r.v4 r.startVal r.endVal = false) ∧
    (∀ r, r ∈ (FilterRanges ranges).1 ↔ r ∈ ranges ∧
      (isHongKong r.info = true ∨ isMacao r.info = true ∨ isTaiwan r.info = true ∨
        (IsMainlandChina r.info = false ∧ isHongKong r.info = false ∧
         isMacao r.info = false ∧ isTaiwan r.info = false)) ∧
      IsPrivateOrReserved r.v4 r.startVal r.endVal = false) ∧
    (List.Pairwise
        (fun a b : IPRange => ∀ x, a.startVal ≤ x → x ≤ a.endVal →
          ¬(b.startVal ≤ x ∧ x ≤ b.endVal)) ranges →
      ∀ r ∈ (FilterRanges ranges).1, ∀ m ∈ ranges,
        IsMainlandChina m.info = true →
        ∀ x, r.startVal ≤ x → x ≤ r.endVal → ¬(m.startVal ≤ x ∧ x ≤ m.endVal)) := by
  have h1 : (FilterRanges ranges).1 =
      ranges.filter (fun r => !IsMainlandChina r.info &&
        !IsPrivateOrReserved r.v4 r.startVal r.endVal) :=
    filterRangesCore_fst ranges
  have h2 : ∀ r ∈ (FilterRanges ranges).1,
      IsMainlandChina r.info = false ∧
      IsPrivateOrReserved r.v4 r.startVal r.endVal = false := by
    intro r hr
    rw [h1, List.mem_filter] at hr
    have := hr.2
    simp only [Bool.and_eq_true, Bool.not_eq_true'] at this
    exact this
  have hmem : ∀ r ∈ (FilterRanges ranges).1, r ∈ ranges := by
    intro r hr
    rw [h1, List.mem_filter] at hr
    exact hr.1
  refine ⟨h1, h2, ?_, ?_⟩
  · intro r
    constructor
    · intro hr
      refine ⟨hmem r hr, ?_, (h2 r hr).2⟩
      obtain ⟨hm, _⟩ := h2 r hr
      by_cases hk : isHongKong r.info
      · exact Or.inl hk
      · by_cases hmo : isMacao r.info
        · exact Or.inr (Or.inl hmo)
        · by_cases htw : isTaiwan r.info
          · exact Or.inr (Or.inr (Or.inl htw))
          · exact Or.inr (Or.inr (Or.inr ⟨hm, Bool.eq_false_iff.mpr hk,
              Bool.eq_false_iff.mpr hmo, Bool.eq_false_iff.mpr htw⟩))
    · intro ⟨hin, hbucket, hres⟩
      rw [h1, List.mem_filter]
      refine ⟨hin, ?_⟩
      have hm : IsMainlandChina r.info = false := by
        rcases hbucket with hk | hmo | htw | hother
        · exact hk_not_mainland _ hk
        · exact mo_not_mainland _ hmo
        · exact tw_not_mainland _ htw
        · exact hother.1
      simp [hm, hres]
  · intro hpw r hr m hm hmm x hx1 hx2
    have hrm : r ≠ m := by
      intro he
      rw [he] at hr
      have := (h2 m hr).1
      rw [this] at hmm
      cases hmm
    have hsymm : Symmetric
        (fun a b : IPRange => ∀ x, a.startVal ≤ x → x ≤ a.endVal →
          ¬(b.startVal ≤ x ∧ x ≤ b.endVal)) := by
      intro a b hab y hy1 hy2 hy3
      exact hab y hy3.1 hy3.2 ⟨hy1, hy2⟩
    exact hpw.forall hsymm (hmem r hr) hm hrm x hx1 hx2

/-- Witness for C1 at a concrete two-range input: the Hong-Kong range is
kept and shares no address with the mainland range. -/
theorem FilterRanges_no_mainland_leak_witness :
    ¬(16777216 ≤ 16777500 ∧ 16777500 ≤ 16777471) :=
  (FilterRanges_no_mainland_leak [exMainland, exHongKong]).2.2.2
    (by
      refine List.Pairwise.cons ?_ (List.pairwise_singleton _ _)
      intro b hb
      rw [List.mem_singleton] at hb
      subst hb
      intro x h1 h2 h3
      simp only [exMainland, exHongKong] at h1 h2 h3
      omega)
    exHongKong (by decide) exMainland (by decide) (by decide)
    16777500 (by decide) (by decide)

/-! ## C5: the spec's normalizer scenario S3 -/

/-- C5 counterexample: on the IPv4 interval [192.0.2.5, 192.0.2.10]
(values 3221225989 to 3221225994) the normalizer does NOT return the
claimed list [192.0.2.5/32, 192.0.2.6/31, 192.0.2.8/30] (whose union
would end at 192.0.2.11, overshooting the interval). -/
theorem rustStyleNormalized_s3_counterexample :
    rustStyleNormalized 32 [(3221225989, 3221225994)] ≠
      [(3221225989, 32), (3221225990, 31), (3221225992, 30)] := by decide

/-- C5 amended: the normalizer on [192.0.2.5, 192.0.2.10] returns exactly
[192.0.2.5/32, 192.0.2.6/31, 192.0.2.8/31, 192.0.2.10/32]. -/
theorem rustStyleNormalized_s3_actual :
    rustStyleNormalized 32 [(3221225989, 3221225994)] =
      [(3221225989, 32), (3221225990, 31), (3221225992, 31), (3221225994, 32)] := by
  decide

/-! ## C10: unused inputs do not interfere -/

/-- C10: the result of `SmartMergeNonChinaCIDRs` depends only on the
`nonChinaIPv4`/`nonChinaIPv6` arguments; varying the `allIPv4`/`allIPv6`
arguments arbitrarily leaves both returned CIDR lists unchanged. -/
theorem SmartMergeNonChinaCIDRs_ignores_all_ranges
    (a4 a6 b4 b6 n4 n6 : List IPRange) :
    SmartMergeNonChinaCIDRs a4 a6 n4 n6 = SmartMergeNonChinaCIDRs b4 b6 n4 n6 := rfl

/-! ## C4: the aggregator contract

Helper lemmas about the coalescing loop `aggLoop`, under the invariant
that the tail is sorted by first address and every tail first address is
at least the accumulator's first address. -/

theorem aggLoop_first_le (rest : List (Nat × Nat)) : ∀ lastR : Nat × Nat,
    (∀ p ∈ rest, lastR.1 ≤ p.1) →
    List.Pairwise (fun a b : Nat × Nat => a.1 ≤ b.1) rest →
    ∀ q ∈ aggLoop lastR rest, lastR.1 ≤ q.1 := by
  induction rest with
  | nil =>
    intro lastR _ _ q hq
    simp only [aggLoop, List.mem_singleton] at hq
    subst hq
    exact le_refl _
  | cons c rest ih =>
    intro lastR hge hs q hq
    simp only [aggLoop] at hq
    by_cases hc : max c.1 1 - 1 ≤ lastR.2
    · rw [if_pos hc] at hq
      exact ih (lastR.1, max lastR.2 c.2)
        (fun p hp => hge p (List.mem_cons_of_mem _ hp)) hs.of_cons q hq
    · rw [if_neg hc] at hq
      rcases List.mem_cons.mp hq with h | h
      · subst h; exact le_refl _
      · have hcs := List.pairwise_cons.mp hs
        exact le_trans (hge c (List.mem_cons_self _ _)) (ih c hcs.1 hcs.2 q h)

theorem aggLoop_wf (rest : List (Nat × Nat)) : ∀ lastR : Nat × Nat,
    lastR.1 ≤ lastR.2 → (∀ p ∈ rest, p.1 ≤ p.2) →
    ∀ q ∈ aggLoop lastR rest, q.1 ≤ q.2 := by
  induction rest with
  | nil =>
    intro lastR hwf _ q hq
    simp only [aggLoop, List.mem_singleton] at hq
    subst hq
    exact hwf
  | cons c rest ih =>
    intro lastR hwf hall q hq
    simp only [aggLoop] at hq
    by_cases hc : max c.1 1 - 1 ≤ lastR.2
    · rw [if_pos hc] at hq
      refine ih (lastR.1, max lastR.2 c.2) ?_
        (fun p hp => hall p (List.mem_cons_of_mem _ hp)) q hq
      exact le_trans hwf (le_max_left _ _)
    · rw [if_neg hc] at hq
      rcases List.mem_cons.mp hq with h | h
      · subst h; exact hwf
      · exact ih c (hall c (List.mem_cons_self _ _))
          (fun p hp => hall p (List.mem_cons_of_mem _ hp)) q h

theorem aggLoop_last_lt (rest : List (Nat × Nat)) : ∀ (lastR : Nat × Nat) (B : Nat),
    lastR.2 < B → (∀ p ∈ rest, p.2 < B) →
    ∀ q ∈ aggLoop lastR rest, q.2 < B := by
  induction rest with
  | nil =>
    intro lastR B hB _ q hq
    simp only [aggLoop, List.mem_singleton] at hq
    subst hq
    exact hB
  | cons c rest ih =>
    intro lastR B hB hall q hq
    simp only [aggLoop] at hq
    by_cases hc : max c.1 1 - 1 ≤ lastR.2
    · rw [if_pos hc] at hq
      refine ih (lastR.1, max lastR.2 c.2) B ?_
        (fun p hp => hall p (List.mem_cons_of_mem _ hp)) q hq
      exact max_lt hB (hall c (List.mem_cons_self _ _))
    · rw [if_neg hc] at hq
      rcases List.mem_cons.mp hq with h | h
      · subst h; exact hB
      · exact ih c B (hall c (List.mem_cons_self _ _))
          (fun p hp => hall p (List.mem_cons_of_mem _ hp)) q h

theorem aggLoop_nontouching (rest : List (Nat × Nat)) : ∀ lastR : Nat × Nat,
    (∀ p ∈ rest, lastR.1 ≤ p.1) →
    List.Pairwise (fun a b : Nat × Nat => a.1 ≤ b.1) rest →
    List.Pairwise (fun a b : Nat × Nat => a.2 + 1 < b.1) (aggLoop lastR rest) := by
  induction rest with
  | nil =>
    intro lastR _ _
    simp only [aggLoop]
    exact List.pairwise_singleton _ _
  | cons c rest ih =>
    intro lastR hge hs
    simp only [aggLoop]
    by_cases hc : max c.1 1 - 1 ≤ lastR.2
    · rw [if_pos hc]
      exact ih (lastR.1, max lastR.2 c.2)
        (fun p hp => hge p (List.mem_cons_of_mem _ hp)) hs.of_cons
    · rw [if_neg hc]
      have hcs := List.pairwise_cons.mp hs
      refine List.pairwise_cons.mpr ⟨?_, ih c hcs.1 hcs.2⟩
      intro q hq
      have hq1 : c.1 ≤ q.1 := aggLoop_first_le rest c hcs.1 hcs.2 q hq
      omega

theorem aggLoop_union (rest : List (Nat × Nat)) : ∀ (lastR : Nat × Nat) (x : Nat),
    (∀ p ∈ rest, lastR.1 ≤ p.1) →
    List.Pairwise (fun a b : Nat × Nat => a.1 ≤ b.1) rest →
    (((lastR.1 ≤ x ∧ x ≤ lastR.2) ∨ ∃ p ∈ rest, p.1 ≤ x ∧ x ≤ p.2) ↔
      ∃ q ∈ aggLoop lastR rest, q.1 ≤ x ∧ x ≤ q.2) := by
  induction rest with
  | nil =>
    intro lastR x _ _
    simp [aggLoop]
  | cons c rest ih =>
    intro lastR x hge hs
    have hcs := List.pairwise_cons.mp hs
    have hc1 : lastR.1 ≤ c.1 := hge c (List.mem_cons_self _ _)
    simp only [aggLoop]
    by_cases hc : max c.1 1 - 1 ≤ lastR.2
    · rw [if_pos hc]
      rw [← ih (lastR.1, max lastR.2 c.2) x
        (fun p hp => le_trans hc1 (hcs.1 p hp)) hcs.2]
      constructor
      · rintro (h | h)
        · exact Or.inl ⟨h.1, le_trans h.2 (le_max_left _ _)⟩
        · rcases h with ⟨p, hp, hpx⟩
          rcases List.mem_cons.mp hp with h | h
          · subst h
            exact Or.inl ⟨le_trans hc1 hpx.1, le_trans hpx.2 (le_max_right _ _)⟩
          · exact Or.inr ⟨p, h, hpx⟩
      · rintro (h | h)
        · obtain ⟨hx1, hx2⟩ := h
          rcases Nat.lt_or_ge lastR.2 x with hx | hx
          · refine Or.inr ⟨c, List.mem_cons_self _ _, ?_, ?_⟩
            · omega
            · rcases max_cases lastR.2 c.2 with ⟨he, hle⟩ | ⟨he, hle⟩ <;> omega
          · exact Or.inl ⟨hx1, hx⟩
        · rcases h with ⟨p, hp, hpx⟩
          exact Or.inr ⟨p, List.mem_cons_of_mem _ hp, hpx⟩
    · rw [if_neg hc]
      constructor
      · rintro (h | h)
        · exact ⟨lastR, List.mem_cons_self _ _, h⟩
        · rcases h with ⟨p, hp, hpx⟩
          rcases List.mem_cons.mp hp with h | h
          · rw [h] at hpx
            rcases (ih c x hcs.1 hcs.2).mp (Or.inl hpx) with ⟨q, hq, hqx⟩
            exact ⟨q, List.mem_cons_of_mem _ hq, hqx⟩
          · rcases (ih c x hcs.1 hcs.2).mp (Or.inr ⟨p, h, hpx⟩) with ⟨q, hq, hqx⟩
            exact ⟨q, List.mem_cons_of_mem _ hq, hqx⟩
      · rintro ⟨q, hq, hqx⟩
        rcases List.mem_cons.mp hq with h | h
        · subst h; exact Or.inl hqx
        · rcases (ih c x hcs.1 hcs.2).mpr ⟨q, h, hqx⟩ with h2 | h2
          · exact Or.inr ⟨c, List.mem_cons_self _ _, h2⟩
          · rcases h2 with ⟨p, hp, hpx⟩
            exact Or.inr ⟨p, List.mem_cons_of_mem _ hp, hpx⟩

theorem aggCore_contract (pairs : List (Nat × Nat))
    (hs : List.Pairwise (fun a b : Nat × Nat => a.1 ≤ b.1) pairs)
    (hwf : ∀ p ∈ pairs, p.1 ≤ p.2) :
    List.Pairwise (fun a b : Nat × Nat => a.2 + 1 < b.1) (aggCore pairs) ∧
    (∀ q ∈ aggCore pairs, q.1 ≤ q.2) ∧
    (∀ x, (∃ p ∈ pairs, p.1 ≤ x ∧ x ≤ p.2) ↔
      ∃ q ∈ aggCore pairs, q.1 ≤ x ∧ x ≤ q.2) := by
  cases pairs with
  | nil => simp [aggCore]
  | cons p rest =>
    simp only [aggCore]
    have hcs := List.pairwise_cons.mp hs
    refine ⟨aggLoop_nontouching rest p hcs.1 hcs.2, ?_, ?_⟩
    · exact aggLoop_wf rest p (hwf p (List.mem_cons_self _ _))
        (fun q hq => hwf q (List.mem_cons_of_mem _ hq))
    · intro x
      rw [← aggLoop_union rest p x hcs.1 hcs.2]
      constructor
      · rintro ⟨r, hr, hrx⟩
        rcases List.mem_cons.mp hr with h | h
        · rw [h] at hrx; exact Or.inl hrx
        · exact Or.inr ⟨r, h, hrx⟩
      · rintro (h | ⟨r, hr, hrx⟩)
        · exact ⟨p, List.mem_cons_self _ _, h⟩
        · exact ⟨r, List.mem_cons_of_mem _ hr, hrx⟩

theorem aggCore_bound (pairs : List (Nat × Nat)) (B : Nat)
    (hb : ∀ p ∈ pairs, p.2 < B) :
    ∀ q ∈ aggCore pairs, q.2 < B := by
  cases pairs with
  | nil => simp [aggCore]
  | cons p rest =>
    exact aggLoop_last_lt rest p B (hb p (List.mem_cons_self _ _))
      (fun q hq => hb q (List.mem_cons_of_mem _ hq))

theorem rustStyleAggregated_props (ranges : List IPRange)
    (hwf : ∀ r ∈ ranges, r.startVal ≤ r.endVal) :
    List.Pairwise (fun a b : Nat × Nat => a.2 + 1 < b.1) (rustStyleAggregated ranges) ∧
    (∀ q ∈ rustStyleAggregated ranges, q.1 ≤ q.2) ∧
    (∀ x, (∃ r ∈ ranges, r.startVal ≤ x ∧ x ≤ r.endVal) ↔
      ∃ q ∈ rustStyleAggregated ranges, q.1 ≤ x ∧ x ≤ q.2) := by
  by_cases hemp : ranges.isEmpty
  · rw [List.isEmpty_iff] at hemp
    subst hemp
    simp [rustStyleAggregated, aggCore]
  · have hrw : rustStyleAggregated ranges =
        aggCore ((List.insertionSort (fun a b : IPRange => a.startVal ≤ b.startVal)
          ranges).map (fun r => (r.startVal, r.endVal))) := by
      unfold rustStyleAggregated
      rw [if_neg hemp]
    set sorted := List.insertionSort (fun a b : IPRange => a.startVal ≤ b.startVal) ranges
      with hsorted
    have hperm : List.Perm sorted ranges := List.perm_insertionSort _ _
    have hsort : List.Pairwise (fun a b : IPRange => a.startVal ≤ b.startVal) sorted :=
      List.sorted_insertionSort _ _
    have hspairs : List.Pairwise (fun a b : Nat × Nat => a.1 ≤ b.1)
        (sorted.map (fun r => (r.startVal, r.endVal))) := by
      rw [List.pairwise_map]
      exact hsort
    have hwfpairs : ∀ p ∈ sorted.map (fun r => (r.startVal, r.endVal)), p.1 ≤ p.2 := by
      intro p hp
      rcases List.mem_map.mp hp with ⟨r, hr, he⟩
      subst he
      exact hwf r (hperm.mem_iff.mp hr)
    obtain ⟨h1, h2, h3⟩ := aggCore_contract _ hspairs hwfpairs
    rw [hrw]
    refine ⟨h1, h2, ?_⟩
    intro x
    rw [← h3 x]
    constructor
    · rintro ⟨r, hr, hrx⟩
      exact ⟨(r.startVal, r.endVal), List.mem_map_of_mem _ (hperm.mem_iff.mpr hr), hrx⟩
    · rintro ⟨p, hp, hpx⟩
      rcases List.mem_map.mp hp with ⟨r, hr, he⟩
      subst he
      exact ⟨r, hperm.mem_iff.mp hr, hpx⟩

/-- C4: on well-formed input ranges the aggregator returns pairwise
non-touching intervals (any two inputs with c ≤ b+1 have been coalesced),
sorted strictly ascending by first address, whose union equals the union
of the inputs; and on the three ranges of scenario S4 it returns exactly
[(1.0.0.0, 1.0.1.255), (1.0.3.0, 1.0.3.255)]. -/
theorem rustStyleAggregated_contract (ranges : List IPRange)
    (hwf : ∀ r ∈ ranges, r.startVal ≤ r.endVal) :
    (List.Pairwise (fun a b : Nat × Nat => a.2 + 1 < b.1) (rustStyleAggregated ranges) ∧
     List.Pairwise (fun a b : Nat × Nat => a.1 < b.1) (rustStyleAggregated ranges) ∧
     (∀ q ∈ rustStyleAggregated ranges, q.1 ≤ q.2) ∧
     (∀ x, (∃ r ∈ ranges, r.startVal ≤ x ∧ x ≤ r.endVal) ↔
       ∃ q ∈ rustStyleAggregated ranges, q.1 ≤ x ∧ x ≤ q.2)) ∧
    rustStyleAggregated exAggInput = [(16777216, 16777727), (16777984, 16778239)] := by
  obtain ⟨h1, h2, h3⟩ := rustStyleAggregated_props ranges hwf
  refine ⟨⟨h1, ?_, h2, h3⟩, by decide⟩
  refine h1.imp_of_mem ?_
  intro a b ha _ hab
  have := h2 a ha
  omega

/-- Witness for C4 at the S4 input (the concrete scenario of the spec). -/
theorem rustStyleAggregated_contract_witness :
    rustStyleAggregated exAggInput = [(16777216, 16777727), (16777984, 16778239)] :=
  (rustStyleAggregated_contract exAggInput (by decide)).2

/-! ## C2: normalizer exactness and minimality

Arithmetic facts about the fuel-based bit-length and trailing-zero
functions, then the structure of the greedy decomposition. -/

theorem tzFuel_spec : ∀ fuel n, 0 < n → n < 2 ^ fuel →
    2 ^ tzFuel fuel n ∣ n ∧ n / 2 ^ tzFuel fuel n % 2 = 1 := by
  intro fuel
  induction fuel with
  | zero =>
    intro n h0 hlt
    simp at hlt
    omega
  | succ fuel ih =>
    intro n h0 hlt
    by_cases he : n % 2 = 0
    · have h2 : 0 < n / 2 := by omega
      have hlt2 : n / 2 < 2 ^ fuel := by
        rw [pow_succ] at hlt
        omega
      obtain ⟨hd, ho⟩ := ih (n / 2) h2 hlt2
      have hstep : tzFuel (fuel + 1) n = tzFuel fuel (n / 2) + 1 := by
        simp [tzFuel, he]
      rw [hstep]
      constructor
      · rcases hd with ⟨m, hm⟩
        refine ⟨m, ?_⟩
        set t := tzFuel fuel (n / 2) with ht
        have hn : n = 2 * (n / 2) := by omega
        rw [hn, hm, pow_succ]
        ring
      · rw [pow_succ, mul_comm (2 ^ tzFuel fuel (n / 2)) 2, ← Nat.div_div_eq_div_mul]
        exact ho
    · have hstep : tzFuel (fuel + 1) n = 0 := by
        simp [tzFuel, he]
      rw [hstep]
      simp
      omega

theorem goTrailingZeros_spec (n : Nat) (h0 : 0 < n) (hlt : n < 2 ^ 128) :
    2 ^ goTrailingZeros n ∣ n ∧ n / 2 ^ goTrailingZeros n % 2 = 1 := by
  unfold goTrailingZeros
  rw [if_neg (by omega)]
  exact tzFuel_spec 128 n h0 hlt

theorem goTrailingZeros_max (n k : Nat) (h0 : 0 < n) (hlt : n < 2 ^ 128)
    (hd : 2 ^ k ∣ n) : k ≤ goTrailingZeros n := by
  obtain ⟨hdvd, hodd⟩ := goTrailingZeros_spec n h0 hlt
  by_contra hgt
  push_neg at hgt
  have hk : goTrailingZeros n + 1 ≤ k := hgt
  have hdd : 2 ^ (goTrailingZeros n + 1) ∣ n :=
    dvd_trans (pow_dvd_pow 2 hk) hd
  rcases hdd with ⟨m, hm⟩
  set t := goTrailingZeros n with ht
  have he2 : 2 ^ (t + 1) * m = 2 ^ t * (2 * m) := by ring
  rw [hm, he2, Nat.mul_div_cancel_left _ (pow_pos (by norm_num) t)] at hodd
  omega

theorem bitLenAux_zero : ∀ fuel, bitLenAux fuel 0 = 0 := by
  intro fuel
  cases fuel <;> simp [bitLenAux]

theorem bitLenAux_spec : ∀ fuel n, 0 < n → n ≤ fuel →
    2 ^ (bitLenAux fuel n - 1) ≤ n ∧ n < 2 ^ bitLenAux fuel n ∧ 1 ≤ bitLenAux fuel n := by
  intro fuel
  induction fuel with
  | zero => intro n h0 hle; omega
  | succ fuel ih =>
    intro n h0 hle
    have hstep : bitLenAux (fuel + 1) n = bitLenAux fuel (n / 2) + 1 := by
      simp [bitLenAux]
      omega
    rw [hstep]
    by_cases h1 : n = 1
    · subst h1
      norm_num [bitLenAux_zero]
    · have h2 : 2 ≤ n := by omega
      have hd0 : 0 < n / 2 := by omega
      have hdle : n / 2 ≤ fuel := by omega
      obtain ⟨ha, hb, hc⟩ := ih (n / 2) hd0 hdle
      set k := bitLenAux fuel (n / 2) with hk
      have he1 : 2 ^ k = 2 * 2 ^ (k - 1) := by
        conv_lhs => rw [show k = (k - 1) + 1 by omega]
        rw [pow_succ]
        ring
      have he2 : 2 ^ (k + 1) = 2 * 2 ^ k := by
        rw [pow_succ]
        ring
      refine ⟨?_, ?_, by omega⟩
      · simp only [Nat.add_sub_cancel]
        omega
      · omega

theorem bigIntLog2_le_self (n : Nat) (h0 : 0 < n) : 2 ^ bigIntLog2 n ≤ n := by
  unfold bigIntLog2 bitLen
  rw [if_neg (by omega)]
  exact (bitLenAux_spec n n h0 (le_refl n)).1

theorem bigIntLog2_lt (n : Nat) (h0 : 0 < n) : n < 2 ^ (bigIntLog2 n + 1) := by
  unfold bigIntLog2 bitLen
  rw [if_neg (by omega)]
  obtain ⟨_, hb, hc⟩ := bitLenAux_spec n n h0 (le_refl n)
  have : bitLenAux n n - 1 + 1 = bitLenAux n n := by omega
  rw [this]
  exact hb

theorem le_bigIntLog2 (n k : Nat) (h0 : 0 < n) (h : 2 ^ k ≤ n) : k ≤ bigIntLog2 n := by
  have h2 := bigIntLog2_lt n h0
  have : (2 : Nat) ^ k < 2 ^ (bigIntLog2 n + 1) := lt_of_le_of_lt h h2
  have := (Nat.pow_lt_pow_iff_right (by norm_num : 1 < 2)).mp this
  omega

theorem bigIntLog2_le_of_le (n W : Nat) (h0 : 0 < n) (h : n ≤ 2 ^ W) :
    bigIntLog2 n ≤ W := by
  have h1 := bigIntLog2_le_self n h0
  have : (2 : Nat) ^ bigIntLog2 n ≤ 2 ^ W := le_trans h1 h
  exact (Nat.pow_le_pow_iff_right (by norm_num : 1 < 2)).mp this

theorem bChoice_pow_le (W first length : Nat) (h0 : 0 < length) :
    2 ^ bChoice W first length ≤ length := by
  have h1 : bChoice W first length ≤ bigIntLog2 length := min_le_left _ _
  exact le_trans (Nat.pow_le_pow_right (by norm_num) h1) (bigIntLog2_le_self length h0)

theorem bChoice_le_W (W first length : Nat) (h0 : 0 < length)
    (hlen : length ≤ 2 ^ W) : bChoice W first length ≤ W :=
  le_trans (min_le_left _ _) (bigIntLog2_le_of_le length W h0 hlen)

theorem bChoice_dvd (W first length : Nat) (hW : W ≤ 128)
    (hfirst : first < 2 ^ W) : 2 ^ bChoice W first length ∣ first := by
  by_cases hf : first = 0
  · subst hf
    exact Dvd.intro 0 rfl
  · have h128 : first < 2 ^ 128 :=
      lt_of_lt_of_le hfirst (Nat.pow_le_pow_right (by norm_num) hW)
    have htz : 2 ^ goTrailingZeros first ∣ first :=
      (goTrailingZeros_spec first (by omega) h128).1
    have hle : bChoice W first length ≤ goTrailingZeros first := by
      unfold bChoice
      rw [if_neg hf]
      exact min_le_right _ _
    exact dvd_trans (pow_dvd_pow 2 hle) htz

theorem mkCIDR_eq (W first b : Nat) (hb : b ≤ W) (hf : first < 2 ^ W)
    (hd : 2 ^ b ∣ first) : mkCIDR W first (W - b) = (first, W - b) := by
  unfold mkCIDR
  have h1 : W - (W - b) = b := by omega
  rw [h1, Nat.mod_eq_of_lt hf, Nat.div_mul_cancel hd]

theorem normLoopF_len_zero : ∀ fuel W first, normLoopF fuel W first 0 = [] := by
  intro fuel W first
  cases fuel <;> simp [normLoopF]

theorem normLoopF_congr : ∀ f1 f2 W first length, length ≤ f1 → length ≤ f2 →
    normLoopF f1 W first length = normLoopF f2 W first length := by
  intro f1
  induction f1 with
  | zero =>
    intro f2 W first length h1 _
    have : length = 0 := by omega
    subst this
    rw [normLoopF_len_zero, normLoopF_len_zero]
  | succ f1 ih =>
    intro f2 W first length h1 h2
    by_cases h0 : length = 0
    · subst h0
      rw [normLoopF_len_zero, normLoopF_len_zero]
    · cases f2 with
      | zero => omega
      | succ f2 =>
        have hb1 : 1 ≤ 2 ^ bChoice W first length := Nat.one_le_two_pow
        simp only [normLoopF, if_neg h0]
        congr 1
        exact ih f2 W (first + 2 ^ bChoice W first length)
          (length - 2 ^ bChoice W first length) (by omega) (by omega)

theorem normLoop_step (W first length : Nat) (h0 : 0 < length) :
    normLoop W first length =
      mkCIDR W first (W - bChoice W first length) ::
        normLoop W (first + 2 ^ bChoice W first length)
          (length - 2 ^ bChoice W first length) := by
  unfold normLoop
  cases length with
  | zero => omega
  | succ l =>
    have hb1 : 1 ≤ 2 ^ bChoice W first (l + 1) := Nat.one_le_two_pow
    simp only [normLoopF, if_neg (by omega : ¬l + 1 = 0)]
    congr 1
    exact normLoopF_congr l (l + 1 - 2 ^ bChoice W first (l + 1)) W
      (first + 2 ^ bChoice W first (l + 1)) (l + 1 - 2 ^ bChoice W first (l + 1))
      (by omega) (le_refl _)

theorem normLoop_props (W : Nat) (hW : W ≤ 128) : ∀ length first, 0 < length →
    first + length ≤ 2 ^ W →
    (∀ c ∈ normLoop W first length,
      first ≤ c.1 ∧ c.1 + 2 ^ (W - c.2) ≤ first + length ∧ c.2 ≤ W ∧
        2 ^ (W - c.2) ∣ c.1) ∧
    List.Pairwise (fun c d : Nat × Nat => c.1 + 2 ^ (W - c.2) ≤ d.1)
      (normLoop W first length) ∧
    (∀ x, (∃ c ∈ normLoop W first length, c.1 ≤ x ∧ x < c.1 + 2 ^ (W - c.2)) ↔
      first ≤ x ∧ x < first + length) := by
  intro length
  induction length using Nat.strong_induction_on with
  | _ length ih =>
    intro first h0 hle
    have hfirst : first < 2 ^ W := by omega
    rw [normLoop_step W first length h0]
    set b := bChoice W first length with hbdef
    have hble : 2 ^ b ≤ length := bChoice_pow_le W first length h0
    have hbW : b ≤ W := bChoice_le_W W first length h0 (by omega)
    have hbdvd : 2 ^ b ∣ first := bChoice_dvd W first length hW hfirst
    have hhead : mkCIDR W first (W - b) = (first, W - b) :=
      mkCIDR_eq W first b hbW hfirst hbdvd
    have hpow : W - (W - b) = b := by omega
    rw [hhead]
    have hb1 : 1 ≤ 2 ^ b := Nat.one_le_two_pow
    by_cases hrem : length - 2 ^ b = 0
    · have h2b : 2 ^ b = length := by omega
      have htail : normLoop W (first + 2 ^ b) (length - 2 ^ b) = [] := by
        rw [hrem]
        exact normLoopF_len_zero _ _ _
      rw [htail]
      refine ⟨?_, List.pairwise_singleton _ _, ?_⟩
      · intro c hc
        rw [List.mem_singleton] at hc
        subst hc
        refine ⟨le_refl _, ?_, by omega, ?_⟩
        · simp only [hpow]
          omega
        · rw [hpow]
          exact hbdvd
      · intro x
        simp only [List.mem_singleton]
        constructor
        · rintro ⟨c, hc, hcx⟩
          subst hc
          rw [hpow] at hcx
          omega
        · intro hx
          exact ⟨(first, W - b), rfl, by rw [hpow]; omega⟩
    · obtain ⟨ihm, ihp, ihc⟩ := ih (length - 2 ^ b) (by omega) (first + 2 ^ b)
        (by omega) (by omega)
      refine ⟨?_, ?_, ?_⟩
      · intro c hc
        rcases List.mem_cons.mp hc with h | h
        · subst h
          refine ⟨le_refl _, ?_, by omega, ?_⟩
          · simp only [hpow]
            omega
          · rw [hpow]
            exact hbdvd
        · obtain ⟨ha, hb2, hc2, hd2⟩ := ihm c h
          exact ⟨by omega, by omega, hc2, hd2⟩
      · refine List.pairwise_cons.mpr ⟨?_, ihp⟩
        intro c hc
        have := (ihm c hc).1
        rw [hpow]
        omega
      · intro x
        constructor
        · rintro ⟨c, hc, hcx⟩
          rcases List.mem_cons.mp hc with h | h
          · subst h
            rw [hpow] at hcx
            omega
          · have := (ihc x).mp ⟨c, h, hcx⟩
            omega
        · intro hx
          by_cases hxb : x < first + 2 ^ b
          · exact ⟨(first, W - b), List.mem_cons_self _ _, by rw [hpow]; omega⟩
          · obtain ⟨c, hc, hcx⟩ := (ihc x).mpr (by omega)
            exact ⟨c, List.mem_cons_of_mem _ hc, hcx⟩

theorem dyadic_laminar (k m qa qc x : Nat) (hkm : k ≤ m)
    (hax1 : 2 ^ k * qa ≤ x) (hax2 : x < 2 ^ k * qa + 2 ^ k)
    (hcx1 : 2 ^ m * qc ≤ x) (hcx2 : x < 2 ^ m * qc + 2 ^ m) :
    2 ^ m * qc ≤ 2 ^ k * qa ∧ 2 ^ k * qa + 2 ^ k ≤ 2 ^ m * qc + 2 ^ m := by
  have hsplit : (2 : Nat) ^ m = 2 ^ (m - k) * 2 ^ k := by
    rw [← pow_add]
    congr 1
    omega
  set Q := 2 ^ (m - k) * qc with hQ
  have hcQ : 2 ^ m * qc = 2 ^ k * Q := by
    rw [hsplit, hQ]
    ring
  have hcQm : 2 ^ m * qc + 2 ^ m = 2 ^ k * (Q + 2 ^ (m - k)) := by
    rw [hsplit, hQ]
    ring
  have he : 2 ^ k * (qa + 1) = 2 ^ k * qa + 2 ^ k := by ring
  have hQa : Q ≤ qa := by
    by_contra hlt
    push_neg at hlt
    have hmul : 2 ^ k * (qa + 1) ≤ 2 ^ k * Q := Nat.mul_le_mul_left _ (by omega)
    omega
  have hQb : qa + 1 ≤ Q + 2 ^ (m - k) := by
    by_contra hlt
    push_neg at hlt
    have hmul : 2 ^ k * (Q + 2 ^ (m - k)) ≤ 2 ^ k * qa := Nat.mul_le_mul_left _ (by omega)
    omega
  constructor
  · rw [hcQ]
    exact Nat.mul_le_mul_left _ hQa
  · have hmul : 2 ^ k * (qa + 1) ≤ 2 ^ k * (Q + 2 ^ (m - k)) :=
      Nat.mul_le_mul_left _ hQb
    omega

theorem normLoop_sub_block (W : Nat) (hW : W ≤ 128) : ∀ length first a k,
    0 < length → first + length ≤ 2 ^ W → 2 ^ k ∣ a → first ≤ a →
    a + 2 ^ k ≤ first + length →
    ∃ g ∈ normLoop W first length, g.1 ≤ a ∧ a + 2 ^ k ≤ g.1 + 2 ^ (W - g.2) := by
  intro length
  induction length using Nat.strong_induction_on with
  | _ length ih =>
    intro first a k h0 hle hdvd hfa hak
    have h2k : 1 ≤ 2 ^ k := Nat.one_le_two_pow
    have hfirst : first < 2 ^ W := by omega
    rw [normLoop_step W first length h0]
    set b := bChoice W first length with hbdef
    have hble : 2 ^ b ≤ length := bChoice_pow_le W first length h0
    have hbW : b ≤ W := bChoice_le_W W first length h0 (by omega)
    have hbdvd : 2 ^ b ∣ first := bChoice_dvd W first length hW hfirst
    have hhead : mkCIDR W first (W - b) = (first, W - b) :=
      mkCIDR_eq W first b hbW hfirst hbdvd
    rw [hhead]
    have hpow : W - (W - b) = b := by omega
    have hb1 : 1 ≤ 2 ^ b := Nat.one_le_two_pow
    obtain ⟨qa, hqa⟩ := hdvd
    obtain ⟨qf, hqf⟩ := hbdvd
    by_cases hcase : a < first + 2 ^ b
    · by_cases hkb : k ≤ b
      · have hl := dyadic_laminar k b qa qf a hkb (by omega) (by omega)
          (by omega) (by omega)
        refine ⟨(first, W - b), List.mem_cons_self _ _, ?_, ?_⟩
        · simp only
          omega
        · simp only [hpow]
          omega
      · exfalso
        push_neg at hkb
        have hl := dyadic_laminar b k qf qa a (le_of_lt hkb) (by omega) (by omega)
          (by omega) (by omega)
        have haf : a = first := by omega
        have hdvdf : 2 ^ k ∣ first := ⟨qa, by omega⟩
        have hklen : 2 ^ k ≤ length := by omega
        have hk1 : k ≤ bigIntLog2 length := le_bigIntLog2 length k h0 hklen
        have hk2 : k ≤ (if first = 0 then W else goTrailingZeros first) := by
          by_cases hf0 : first = 0
          · rw [if_pos hf0]
            have : (2 : Nat) ^ k ≤ 2 ^ W := le_trans hklen (by omega)
            exact (Nat.pow_le_pow_iff_right (by norm_num : 1 < 2)).mp this
          · rw [if_neg hf0]
            have h128 : first < 2 ^ 128 :=
              lt_of_lt_of_le hfirst (Nat.pow_le_pow_right (by norm_num) hW)
            exact goTrailingZeros_max first k (by omega) h128 hdvdf
        have : k ≤ b := by
          rw [hbdef]
          unfold bChoice
          exact le_min hk1 hk2
        omega
    · have hrem0 : 0 < length - 2 ^ b := by omega
      obtain ⟨g, hg, hgp⟩ := ih (length - 2 ^ b) (by omega) (first + 2 ^ b) a k
        hrem0 (by omega) ⟨qa, hqa⟩ (by omega) (by omega)
      exact ⟨g, List.mem_cons_of_mem _ hg, hgp⟩

theorem blocks_point_eq (W : Nat) : ∀ L : List (Nat × Nat),
    List.Pairwise (fun c d : Nat × Nat => c.1 + 2 ^ (W - c.2) ≤ d.1) L →
    ∀ g1 ∈ L, ∀ g2 ∈ L, ∀ x, g1.1 ≤ x → x < g1.1 + 2 ^ (W - g1.2) →
      g2.1 ≤ x → x < g2.1 + 2 ^ (W - g2.2) → g1 = g2 := by
  intro L
  induction L with
  | nil => simp
  | cons p t ihl =>
    intro hpw g1 hg1 g2 hg2 x h11 h12 h21 h22
    have hcs := List.pairwise_cons.mp hpw
    rcases List.mem_cons.mp hg1 with h1 | h1 <;> rcases List.mem_cons.mp hg2 with h2 | h2
    · rw [h1, h2]
    · exfalso
      have := hcs.1 g2 h2
      rw [h1] at h11 h12
      omega
    · exfalso
      have := hcs.1 g1 h1
      rw [h2] at h21 h22
      omega
    · exact ihl hcs.2 g1 h1 g2 h2 x h11 h12 h21 h22

theorem normLoop_minimal (W : Nat) (hW : W ≤ 128) (length first : Nat)
    (h0 : 0 < length) (hle : first + length ≤ 2 ^ W) (L : List (Nat × Nat))
    (hvalid : ∀ c ∈ L, c.2 ≤ W ∧ 2 ^ (W - c.2) ∣ c.1)
    (hcover : ∀ x, (∃ c ∈ L, c.1 ≤ x ∧ x < c.1 + 2 ^ (W - c.2)) ↔
      first ≤ x ∧ x < first + length) :
    (normLoop W first length).length ≤ L.length := by
  classical
  obtain ⟨hmem, hpw, _⟩ := normLoop_props W hW length first h0 hle
  have hnd : (normLoop W first length).Nodup := by
    refine hpw.imp ?_
    intro c d hcd he
    rw [he] at hcd
    have h1 : 1 ≤ 2 ^ (W - d.2) := Nat.one_le_two_pow
    omega
  have hchoose : ∀ g ∈ normLoop W first length,
      ∃ c ∈ L, c.1 ≤ g.1 ∧ g.1 < c.1 + 2 ^ (W - c.2) := by
    intro g hg
    obtain ⟨hga, hgb, _, _⟩ := hmem g hg
    have h1 : 1 ≤ 2 ^ (W - g.2) := Nat.one_le_two_pow
    exact (hcover g.1).mpr (by omega)
  refine le_trans ?_ L.toFinset_card_le
  rw [← List.toFinset_card_of_nodup hnd]
  apply Finset.card_le_card_of_injOn
    (fun g => if hg : ∃ c ∈ L, c.1 ≤ g.1 ∧ g.1 < c.1 + 2 ^ (W - c.2)
      then hg.choose else g)
  · intro g hgmem
    rw [List.mem_toFinset] at hgmem
    have hex := hchoose g hgmem
    rw [List.mem_toFinset]
    simp only [dif_pos hex]
    exact hex.choose_spec.1
  · intro g1 hg1 g2 hg2 heq
    rw [Finset.mem_coe, List.mem_toFinset] at hg1 hg2
    have hex1 := hchoose g1 hg1
    have hex2 := hchoose g2 hg2
    simp only [dif_pos hex1, dif_pos hex2] at heq
    obtain ⟨hcL1, hc11, hc12⟩ := hex1.choose_spec
    obtain ⟨hcL2, hc21, hc22⟩ := hex2.choose_spec
    rw [heq] at hcL1 hc11 hc12
    set c := hex2.choose with hcdef
    have hcbounds : first ≤ c.1 ∧ c.1 + 2 ^ (W - c.2) ≤ first + length := by
      have h1 : 1 ≤ 2 ^ (W - c.2) := Nat.one_le_two_pow
      have hown := (hcover c.1).mp ⟨c, hcL1, le_refl _, by omega⟩
      have hend := (hcover (c.1 + 2 ^ (W - c.2) - 1)).mp
        ⟨c, hcL1, by omega, by omega⟩
      omega
    obtain ⟨hcW, hcdvd⟩ := hvalid c hcL1
    obtain ⟨g', hg', hg'1, hg'2⟩ := normLoop_sub_block W hW length first c.1
      (W - c.2) h0 hle hcdvd hcbounds.1 hcbounds.2
    have hone1 : 1 ≤ 2 ^ (W - g1.2) := Nat.one_le_two_pow
    have hone2 : 1 ≤ 2 ^ (W - g2.2) := Nat.one_le_two_pow
    have he1 : g1 = g' := by
      refine blocks_point_eq W (normLoop W first length) hpw g1 hg1 g' hg' g1.1
        (le_refl _) (by omega) ?_ ?_ <;> omega
    have he2 : g2 = g' := by
      refine blocks_point_eq W (normLoop W first length) hpw g2 hg2 g' hg' g2.1
        (le_refl _) (by omega) ?_ ?_ <;> omega
    rw [he1, he2]

theorem rustStyleNormalized_singleton (W first last : Nat) (h : first ≤ last) :
    rustStyleNormalized W [(first, last)] = normLoop W first (last + 1 - first) := by
  simp only [rustStyleNormalized]
  rw [if_neg (by simp; omega)]
  rw [List.append_nil]

/-- C2: for W ∈ {32, 128} and any interval [first, last] with
first ≤ last < 2^W, the normalizer on that single interval emits CIDRs
with pairwise disjoint address intervals whose union is exactly
[first, last], and the number of emitted CIDRs is minimal over all lists
of valid CIDRs whose union is exactly [first, last]. -/
theorem rustStyleNormalized_exact_minimal (W first last : Nat)
    (hWfam : W = 32 ∨ W = 128) (hfl : first ≤ last) (hlt : last < 2 ^ W) :
    List.Pairwise (fun c d : Nat × Nat =>
      ∀ x, ¬(c.1 ≤ x ∧ x < c.1 + 2 ^ (W - c.2) ∧ d.1 ≤ x ∧ x < d.1 + 2 ^ (W - d.2)))
      (rustStyleNormalized W [(first, last)]) ∧
    (∀ x, (∃ c ∈ rustStyleNormalized W [(first, last)],
        c.1 ≤ x ∧ x < c.1 + 2 ^ (W - c.2)) ↔ first ≤ x ∧ x ≤ last) ∧
    (∀ L : List (Nat × Nat), (∀ c ∈ L, c.2 ≤ W ∧ 2 ^ (W - c.2) ∣ c.1) →
      (∀ x, (∃ c ∈ L, c.1 ≤ x ∧ x < c.1 + 2 ^ (W - c.2)) ↔ first ≤ x ∧ x ≤ last) →
      (rustStyleNormalized W [(first, last)]).length ≤ L.length) := by
  have hW : W ≤ 128 := by rcases hWfam with h | h <;> omega
  have h0 : 0 < last + 1 - first := by omega
  have hle : first + (last + 1 - first) ≤ 2 ^ W := by omega
  rw [rustStyleNormalized_singleton W first last hfl]
  obtain ⟨_, hpw, hcov⟩ := normLoop_props W hW (last + 1 - first) first h0 hle
  refine ⟨?_, ?_, ?_⟩
  · refine hpw.imp ?_
    intro c d hcd x hx
    omega
  · intro x
    rw [hcov x]
    omega
  · intro L hvalid hcover
    apply normLoop_minimal W hW (last + 1 - first) first h0 hle L hvalid
    intro x
    rw [hcover x]
    omega

/-- Witness for C2 at W = 32 on the interval [5, 10]. -/
theorem rustStyleNormalized_exact_minimal_witness :
    (5 ≤ 10 ∧ 10 < 2 ^ 32) ∧
    (List.Pairwise (fun c d : Nat × Nat =>
      ∀ x, ¬(c.1 ≤ x ∧ x < c.1 + 2 ^ (32 - c.2) ∧ d.1 ≤ x ∧ x < d.1 + 2 ^ (32 - d.2)))
      (rustStyleNormalized 32 [(5, 10)]) ∧
    (∀ x, (∃ c ∈ rustStyleNormalized 32 [(5, 10)],
        c.1 ≤ x ∧ x < c.1 + 2 ^ (32 - c.2)) ↔ 5 ≤ x ∧ x ≤ 10) ∧
    (∀ L : List (Nat × Nat), (∀ c ∈ L, c.2 ≤ 32 ∧ 2 ^ (32 - c.2) ∣ c.1) →
      (∀ x, (∃ c ∈ L, c.1 ≤ x ∧ x < c.1 + 2 ^ (32 - c.2)) ↔ 5 ≤ x ∧ x ≤ 10) →
      (rustStyleNormalized 32 [(5, 10)]).length ≤ L.length)) :=
  ⟨⟨by decide, by decide⟩,
    rustStyleNormalized_exact_minimal 32 5 10 (Or.inl rfl) (by decide) (by decide)⟩

/-! ## C8: invariants of the emitted per-family CIDR lists -/

theorem rustStyleNormalized_eq_flat (W : Nat) : ∀ A : List (Nat × Nat),
    (∀ r ∈ A, r.1 ≤ r.2) →
    rustStyleNormalized W A = A.flatMap (fun r => normLoop W r.1 (r.2 + 1 - r.1)) := by
  intro A
  induction A with
  | nil => intro _; rfl
  | cons r rest ih =>
    intro hwf
    have hr := hwf r (List.mem_cons_self _ _)
    simp only [rustStyleNormalized]
    rw [if_neg (by omega)]
    rw [ih (fun s hs => hwf s (List.mem_cons_of_mem _ hs))]
    rw [List.flatMap_cons]

theorem normalized_chain (W : Nat) (hW : W ≤ 128) : ∀ A : List (Nat × Nat),
    (∀ r ∈ A, r.1 ≤ r.2 ∧ r.2 < 2 ^ W) →
    List.Pairwise (fun r s : Nat × Nat => r.2 + 1 < s.1) A →
    List.Pairwise (fun c d : Nat × Nat => c.1 + 2 ^ (W - c.2) ≤ d.1)
      (rustStyleNormalized W A) := by
  intro A
  induction A with
  | nil => intro _ _; exact List.Pairwise.nil
  | cons r rest ih =>
    intro hwf hpw
    have hr := hwf r (List.mem_cons_self _ _)
    have hwfr : ∀ s ∈ rest, s.1 ≤ s.2 ∧ s.2 < 2 ^ W :=
      fun s hs => hwf s (List.mem_cons_of_mem _ hs)
    have hcs := List.pairwise_cons.mp hpw
    rw [rustStyleNormalized_eq_flat W (r :: rest) (fun s hs => (hwf s hs).1)]
    rw [List.flatMap_cons]
    rw [← rustStyleNormalized_eq_flat W rest (fun s hs => (hwfr s hs).1)]
    rw [List.pairwise_append]
    have h0 : 0 < r.2 + 1 - r.1 := by omega
    have hle : r.1 + (r.2 + 1 - r.1) ≤ 2 ^ W := by omega
    obtain ⟨hmem, hblk, _⟩ := normLoop_props W hW (r.2 + 1 - r.1) r.1 h0 hle
    refine ⟨hblk, ih hwfr hcs.2, ?_⟩
    intro c hc d hd
    have hcb := hmem c hc
    rw [rustStyleNormalized_eq_flat W rest (fun s hs => (hwfr s hs).1)] at hd
    rcases List.mem_flatMap.mp hd with ⟨s, hs, hds⟩
    have hswf := hwfr s hs
    have h0s : 0 < s.2 + 1 - s.1 := by omega
    have hles : s.1 + (s.2 + 1 - s.1) ≤ 2 ^ W := by omega
    obtain ⟨hmems, _, _⟩ := normLoop_props W hW (s.2 + 1 - s.1) s.1 h0s hles
    have hdb := hmems d hds
    have := hcs.1 s hs
    omega

theorem rustStyleAggregated_bound (ranges : List IPRange) (B : Nat)
    (hb : ∀ r ∈ ranges, r.endVal < B) :
    ∀ q ∈ rustStyleAggregated ranges, q.2 < B := by
  by_cases hemp : ranges.isEmpty
  · rw [List.isEmpty_iff] at hemp
    subst hemp
    simp [rustStyleAggregated, aggCore]
  · have hrw : rustStyleAggregated ranges =
        aggCore ((List.insertionSort (fun a b : IPRange => a.startVal ≤ b.startVal)
          ranges).map (fun r => (r.startVal, r.endVal))) := by
      unfold rustStyleAggregated
      rw [if_neg hemp]
    rw [hrw]
    apply aggCore_bound
    intro p hp
    rcases List.mem_map.mp hp with ⟨r, hr, he⟩
    subst he
    exact hb r ((List.perm_insertionSort _ _).mem_iff.mp hr)

theorem aggNorm_chain (W : Nat) (hW : W ≤ 128) (ranges : List IPRange)
    (hwf : ∀ r ∈ ranges, r.startVal ≤ r.endVal ∧ r.endVal < 2 ^ W) :
    List.Pairwise (fun c d : Nat × Nat => c.1 + 2 ^ (W - c.2) ≤ d.1)
      (rustStyleAggregateAndNormalize W ranges) := by
  unfold rustStyleAggregateAndNormalize
  by_cases hemp : ranges.isEmpty
  · rw [if_pos hemp]
    exact List.Pairwise.nil
  · rw [if_neg hemp]
    obtain ⟨hnt, hqwf, _⟩ := rustStyleAggregated_props ranges (fun r hr => (hwf r hr).1)
    have hqb := rustStyleAggregated_bound ranges (2 ^ W) (fun r hr => (hwf r hr).2)
    apply normalized_chain W hW
    · intro q hq
      exact ⟨hqwf q hq, hqb q hq⟩
    · exact hnt

/-- C8: each per-family CIDR list produced by `SmartMergeNonChinaCIDRs`
(aggregation followed by normalization) consists of CIDRs whose address
intervals are pairwise non-intersecting and which are strictly ascending
by first address. -/
theorem SmartMergeNonChinaCIDRs_invariants (a4 a6 n4 n6 : List IPRange)
    (h4 : ∀ r ∈ n4, r.startVal ≤ r.endVal ∧ r.endVal < 2 ^ 32)
    (h6 : ∀ r ∈ n6, r.startVal ≤ r.endVal ∧ r.endVal < 2 ^ 128) :
    (List.Pairwise (fun c d : Nat × Nat =>
        ∀ x, ¬(c.1 ≤ x ∧ x < c.1 + 2 ^ (32 - c.2) ∧ d.1 ≤ x ∧ x < d.1 + 2 ^ (32 - d.2)))
        (SmartMergeNonChinaCIDRs a4 a6 n4 n6).1 ∧
      List.Pairwise (fun c d : Nat × Nat => c.1 < d.1)
        (SmartMergeNonChinaCIDRs a4 a6 n4 n6).1) ∧
    (List.Pairwise (fun c d : Nat × Nat =>
        ∀ x, ¬(c.1 ≤ x ∧ x < c.1 + 2 ^ (128 - c.2) ∧ d.1 ≤ x ∧ x < d.1 + 2 ^ (128 - d.2)))
        (SmartMergeNonChinaCIDRs a4 a6 n4 n6).2 ∧
      List.Pairwise (fun c d : Nat × Nat => c.1 < d.1)
        (SmartMergeNonChinaCIDRs a4 a6 n4 n6).2) := by
  have hc4 := aggNorm_chain 32 (by norm_num) n4 h4
  have hc6 := aggNorm_chain 128 (by norm_num) n6 h6
  constructor
  · constructor
    · refine hc4.imp ?_
      intro c d hcd x hx
      omega
    · refine hc4.imp ?_
      intro c d hcd
      have h1 : 1 ≤ 2 ^ (32 - c.2) := Nat.one_le_two_pow
      omega
  · constructor
    · refine hc6.imp ?_
      intro c d hcd x hx
      omega
    · refine hc6.imp ?_
      intro c d hcd
      have h1 : 1 ≤ 2 ^ (128 - c.2) := Nat.one_le_two_pow
      omega

/-- Witness for C8 at a concrete two-range IPv4 input and empty IPv6
input. -/
theorem SmartMergeNonChinaCIDRs_invariants_witness :
    List.Pairwise (fun c d : Nat × Nat => c.1 < d.1)
      (SmartMergeNonChinaCIDRs [] [] exAggInput []).1 :=
  ((SmartMergeNonChinaCIDRs_invariants [] [] exAggInput []
    (by decide) (by decide)).1).2

/-! ## C3: behaviour of extraction on malformed leaves -/

set_option maxRecDepth 40000 in
/-- C3 counterexample: on a concrete 97-node trie whose IPv4 root has one
good leaf and one leaf pointer (2000) resolving past the end of the body,
`ExtractAllRanges` silently skips the bad leaf and returns the remaining
range with a nil error, instead of failing. -/
theorem ExtractAllRanges_silent_skip_counterexample :
    ExtractAllRanges c3extractor 4 =
      ([pathToRange true [false] [85, 83]], [], none) ∧
    readNode c3extractor 96 1 = 2000 ∧
    c3extractor.v4offset = 96 ∧
    resolve c3extractor 2000 = none := by decide

/-- C3 amended: a leaf whose pointer or length fails the bounds checks is
silently skipped (the failing leaf contributes nothing and the walk
continues), and `ExtractAllRanges` always returns a nil error. -/
theorem ExtractAllRanges_skips_bad_leaves (e : IPDBExtractor) (fuel : Nat) :
    (ExtractAllRanges e fuel).2.2 = none ∧
    (∀ node path f, e.nodeCount ≤ node → resolve e node = none →
      traverseIPv4Node e (f + 1) node path = []) := by
  refine ⟨rfl, ?_⟩
  intro node path f hn hres
  simp [traverseIPv4Node, if_pos hn, hres]

set_option maxRecDepth 40000 in
/-- Witness for C3's amended claim at the concrete trie. -/
theorem ExtractAllRanges_skips_bad_leaves_witness :
    (ExtractAllRanges c3extractor 4).2.2 = none ∧
    traverseIPv4Node c3extractor 4 2000 [true] = [] :=
  ⟨(ExtractAllRanges_skips_bad_leaves c3extractor 4).1,
   (ExtractAllRanges_skips_bad_leaves c3extractor 4).2 2000 [true] 3
     (by decide) (by decide)⟩

/-! ## C6: the IPv4-mapped subtree is never emitted as IPv6 -/

theorem traverseIPv6_no_mapped_aux (e : IPDBExtractor) : ∀ fuel node path,
    ∀ r ∈ traverseIPv6NodeFromRoot e fuel node path,
      isIPv4MappedPath r.path = false := by
  intro fuel
  induction fuel with
  | zero =>
    intro node path r hr
    simp [traverseIPv6NodeFromRoot] at hr
  | succ fuel ih =>
    intro node path r hr
    simp only [traverseIPv6NodeFromRoot] at hr
    by_cases h96 : path.length = 96 ∧ isIPv4MappedPath path = true
    · rw [if_pos h96] at hr
      simp at hr
    · rw [if_neg h96] at hr
      by_cases hleaf : e.nodeCount ≤ node
      · rw [if_pos hleaf] at hr
        by_cases hmap : isIPv4MappedPath path = true
        · rw [if_pos hmap] at hr
          simp at hr
        · rw [if_neg hmap] at hr
          cases hres : resolve e node with
          | none =>
            rw [hres] at hr
            simp at hr
          | some bytes =>
            rw [hres] at hr
            rw [List.mem_singleton] at hr
            subst hr
            simpa [pathToRange] using Bool.eq_false_iff.mpr hmap
      · rw [if_neg hleaf] at hr
        rcases List.mem_append.mp hr with h | h
        · by_cases hl : readNode e node 0 ≠ 0
          · rw [if_pos hl] at h
            exact ih _ _ r h
          · rw [if_neg hl] at h
            simp at h
        · by_cases hl : readNode e node 1 ≠ 0
          · rw [if_pos hl] at h
            exact ih _ _ r h
          · rw [if_neg hl] at h
            simp at h

/-- C6: in the IPv6 walk started at the trie root (node 0, empty path),
no emitted range has a path beginning with the 96-bit IPv4-mapped prefix
(80 zero bits then 16 one bits). -/
theorem traverseIPv6NodeFromRoot_skips_mapped (e : IPDBExtractor) (fuel : Nat) :
    ∀ r ∈ traverseIPv6NodeFromRoot e fuel 0 [],
      isIPv4MappedPath r.path = false :=
  fun r hr => traverseIPv6_no_mapped_aux e fuel 0 [] r hr

/-- Witness for C6: the one-node IPv6 trie emits a range, and its path is
not IPv4-mapped. -/
theorem traverseIPv6NodeFromRoot_skips_mapped_witness :
    isIPv4MappedPath (pathToRange false [false] [65]).path = false :=
  traverseIPv6NodeFromRoot_skips_mapped c6extractor 3
    (pathToRange false [false] [65]) (by decide)

/-! ## C9: NewExtractor on malformed headers -/

/-- C9: evidence for the code bug: for every descriptor decoder, the
4-byte content FF FF FF FF — whose big-endian length prefix 4294967295
points past the end of the content and past the 512-byte read-buffer
capacity — makes `NewExtractor` panic at `body[4:4+metaLength]` (slice
bounds out of range) instead of returning a MalformedHeader-style error.
Content that stays within the zero-padded capacity, such as the 3-byte
content 00 00 00, reaches the descriptor decoder instead, whose failure
on the padded bytes is an ordinary error return, as the claim says. -/
theorem NewExtractor_crash_on_overlong_length
    (decodeMeta : List Nat → Option MetaData) :
    NewExtractor decodeMeta [255, 255, 255, 255] = OpenResult.crash ∧
    (decodeMeta [] = none →
      NewExtractor decodeMeta [0, 0, 0] = OpenResult.goError) := by
  constructor
  · rfl
  · intro h
    have h2 : decodeMeta (((([0, 0, 0] : List Nat) ++
        List.replicate (readFileCap [0, 0, 0]) 0).drop 4).take (be32 [0, 0, 0] 0)) =
        none := h
    unfold NewExtractor
    rw [if_neg (by decide)]
    rw [h2]

/-- Witness for C9 with the decoder that rejects every descriptor (as
`json.Unmarshal` does on empty or zero bytes). -/
theorem NewExtractor_crash_on_overlong_length_witness :
    NewExtractor (fun _ => none) [255, 255, 255, 255] = OpenResult.crash ∧
    NewExtractor (fun _ => none) [0, 0, 0] = OpenResult.goError :=
  ⟨(NewExtractor_crash_on_overlong_length (fun _ => none)).1,
   (NewExtractor_crash_on_overlong_length (fun _ => none)).2 rfl⟩

/-! ## C7: parallel classification vs sequential classification -/

/-- C7 counterexample: with two workers and results arriving in the
order (worker 1, worker 0) — a schedule the channel collection permits —
the parallel filtered list is the two kept ranges in reversed order, not
the sequential order. -/
theorem FilterRangesParallel_order_counterexample :
    (FilterRangesParallel 2 [1, 0] exPar).1 ≠ (FilterRanges exPar).1 := by decide

theorem filterRangesCore_snd (ranges : List IPRange) :
    (filterRangesCore ranges).2.1 =
      ranges.filter (fun r => IsMainlandChina r.info &&
        !IsPrivateOrReserved r.v4 r.startVal r.endVal) := by
  induction ranges with
  | nil => rfl
  | cons r rest ih =>
    by_cases hm : IsMainlandChina r.info
    · by_cases hp : IsPrivateOrReserved r.v4 r.startVal r.endVal <;>
        simp [filterRangesCore, hm, hp, ih, List.filter_cons]
    · by_cases hp : IsPrivateOrReserved r.v4 r.startVal r.endVal <;>
        simp [filterRangesCore, hm, hp, ih, List.filter_cons]

theorem filterRangesCore_counts (l : List IPRange) :
    (filterRangesCore l).2.2.totalRanges = 0 ∧
    (filterRangesCore l).2.2.chinaCIDRsSaved = 0 ∧
    (filterRangesCore l).2.2.chinaFiltered =
      (l.map (fun r => if IsMainlandChina r.info then 1 else 0)).sum ∧
    (filterRangesCore l).2.2.privateFiltered =
      (l.map (fun r => if IsMainlandChina r.info = false ∧
        IsPrivateOrReserved r.v4 r.startVal r.endVal = true then 1 else 0)).sum ∧
    (filterRangesCore l).2.2.hongKongKept =
      (l.map (fun r => if IsMainlandChina r.info = false ∧
        isHongKong r.info = true then 1 else 0)).sum ∧
    (filterRangesCore l).2.2.macaoKept =
      (l.map (fun r => if IsMainlandChina r.info = false ∧
        isHongKong r.info = false ∧ isMacao r.info = true then 1 else 0)).sum ∧
    (filterRangesCore l).2.2.taiwanKept =
      (l.map (fun r => if IsMainlandChina r.info = false ∧ isHongKong r.info = false ∧
        isMacao r.info = false ∧ isTaiwan r.info = true then 1 else 0)).sum ∧
    (filterRangesCore l).2.2.otherKept =
      (l.map (fun r => if IsMainlandChina r.info = false ∧ isHongKong r.info = false ∧
        isMacao r.info = false ∧ isTaiwan r.info = false then 1 else 0)).sum := by
  induction l with
  | nil => simp [filterRangesCore, emptyStats]
  | cons r l ih =>
    obtain ⟨ih1, ih2, ih3, ih4, ih5, ih6, ih7, ih8⟩ := ih
    by_cases hm : IsMainlandChina r.info
    · by_cases hp : IsPrivateOrReserved r.v4 r.startVal r.endVal <;>
        simp [filterRangesCore, hm, hp, incChina,
          ih1, ih2, ih3, ih4, ih5, ih6, ih7, ih8] <;>
        omega
    · by_cases hp : IsPrivateOrReserved r.v4 r.startVal r.endVal <;>
        by_cases hk : isHongKong r.info <;>
        by_cases hmo : isMacao r.info <;>
        by_cases htw : isTaiwan r.info <;>
        simp [filterRangesCore, hm, hp, hk, hmo, htw, incPrivate, incBucket,
          ih1, ih2, ih3, ih4, ih5, ih6, ih7, ih8] <;>
        omega

theorem collectFold (results : List (List IPRange × List IPRange × FilterStats)) :
    ∀ acc : List IPRange × List IPRange × FilterStats,
    (results.foldl
      (fun acc res => (acc.1 ++ res.1, acc.2.1 ++ res.2.1, addStats acc.2.2 res.2.2))
      acc) =
      (acc.1 ++ (results.map (fun p => p.1)).flatten,
       acc.2.1 ++ (results.map (fun p => p.2.1)).flatten,
       ⟨acc.2.2.totalRanges,
        acc.2.2.chinaFiltered + (results.map (fun p => p.2.2.chinaFiltered)).sum,
        acc.2.2.privateFiltered + (results.map (fun p => p.2.2.privateFiltered)).sum,
        acc.2.2.hongKongKept + (results.map (fun p => p.2.2.hongKongKept)).sum,
        acc.2.2.macaoKept + (results.map (fun p => p.2.2.macaoKept)).sum,
        acc.2.2.taiwanKept + (results.map (fun p => p.2.2.taiwanKept)).sum,
        acc.2.2.otherKept + (results.map (fun p => p.2.2.otherKept)).sum,
        acc.2.2.chinaCIDRsSaved + (results.map (fun p => p.2.2.chinaCIDRsSaved)).sum⟩) := by
  induction results with
  | nil =>
    intro acc
    simp
  | cons res rest ih =>
    intro acc
    rw [List.foldl_cons, ih]
    simp [addStats, List.append_assoc, Nat.add_assoc]

theorem range_chunks (cs : Nat) : ∀ (n : Nat) (l : List IPRange),
    ((List.range n).map (fun i => (l.drop (i * cs)).take cs)).flatten =
      l.take (n * cs) := by
  intro n
  induction n with
  | zero => simp
  | succ n ih =>
    intro l
    rw [List.range_succ, List.map_append, List.flatten_append]
    rw [ih]
    rw [show (n + 1) * cs = n * cs + cs by ring]
    rw [List.take_add]
    simp

theorem chunksJoin (l : List IPRange) (nw cs : Nat) (h1 : 1 ≤ nw) :
    ((List.range nw).map (fun i => chunkAt l nw cs i)).flatten = l := by
  obtain ⟨m, rfl⟩ : ∃ m, nw = m + 1 := ⟨nw - 1, by omega⟩
  rw [List.range_succ, List.map_append, List.flatten_append]
  have h2 : (List.range m).map (fun i => chunkAt l (m + 1) cs i) =
      (List.range m).map (fun i => (l.drop (i * cs)).take cs) := by
    apply List.map_congr_left
    intro i hi
    rw [List.mem_range] at hi
    unfold chunkAt
    rw [if_neg (by omega)]
  rw [h2, range_chunks]
  simp only [List.map_cons, List.map_nil, List.flatten_cons, List.flatten_nil]
  unfold chunkAt
  rw [if_pos (by omega)]
  rw [List.append_nil]
  exact List.take_append_drop _ _

theorem FilterRangesParallel_pos (w : Nat) (arrival : List Nat) (ranges : List IPRange)
    (hne : ranges.isEmpty = false) (hw : 1 ≤ w) :
    FilterRangesParallel w arrival ranges =
      (arrival.map (fun i => FilterRanges (chunkAt ranges (min w ranges.length)
          (ranges.length / min w ranges.length) i))).foldl
        (fun acc res => (acc.1 ++ res.1, acc.2.1 ++ res.2.1, addStats acc.2.2 res.2.2))
        ([], [], ⟨ranges.length, 0, 0, 0, 0, 0, 0, 0⟩) := by
  have hlen : 1 ≤ ranges.length := by
    cases ranges with
    | nil => simp at hne
    | cons a l => simp
  have hcs1 : 1 ≤ ranges.length / min w ranges.length := by
    rw [Nat.one_le_div_iff (by omega)]
    omega
  unfold FilterRangesParallel
  rw [if_neg (by simp [hne])]
  simp only [if_neg (show ¬ranges.length / min w ranges.length = 0 by omega)]

theorem flatten_chunks_filter (ranges : List IPRange) (nw cs : Nat) (h1 : 1 ≤ nw)
    (p : IPRange → Bool) :
    ((List.range nw).map (fun i => (chunkAt ranges nw cs i).filter p)).flatten =
      ranges.filter p := by
  have h2 : (List.range nw).map (fun i => (chunkAt ranges nw cs i).filter p) =
      ((List.range nw).map (fun i => chunkAt ranges nw cs i)).map (List.filter p) := by
    rw [List.map_map]
    rfl
  rw [h2, ← List.filter_flatten, chunksJoin ranges nw cs h1]

theorem flatten_chunks_sum (ranges : List IPRange) (nw cs : Nat) (h1 : 1 ≤ nw)
    (f : IPRange → Nat) :
    ((List.range nw).map (fun i => ((chunkAt ranges nw cs i).map f).sum)).sum =
      (ranges.map f).sum := by
  have h2 : (List.range nw).map (fun i => ((chunkAt ranges nw cs i).map f).sum) =
      (((List.range nw).map (fun i => chunkAt ranges nw cs i)).map (List.map f)).map
        List.sum := by
    rw [List.map_map, List.map_map]
    rfl
  rw [h2, ← List.sum_flatten, ← List.map_flatten, chunksJoin ranges nw cs h1]

theorem flatten_chunks_filter_length (ranges : List IPRange) (nw cs : Nat) (h1 : 1 ≤ nw)
    (p : IPRange → Bool) :
    ((List.range nw).map (fun i => ((chunkAt ranges nw cs i).filter p).length)).sum =
      (ranges.filter p).length := by
  have h2 : (List.range nw).map (fun i => ((chunkAt ranges nw cs i).filter p).length) =
      (((List.range nw).map (fun i => chunkAt ranges nw cs i)).map (List.filter p)).map
        List.length := by
    rw [List.map_map, List.map_map]
    rfl
  rw [h2, ← List.length_flatten, ← List.filter_flatten, chunksJoin ranges nw cs h1]

theorem statsExt (s t : FilterStats) (h1 : s.totalRanges = t.totalRanges)
    (h2 : s.chinaFiltered = t.chinaFiltered)
    (h3 : s.privateFiltered = t.privateFiltered)
    (h4 : s.hongKongKept = t.hongKongKept) (h5 : s.macaoKept = t.macaoKept)
    (h6 : s.taiwanKept = t.taiwanKept) (h7 : s.otherKept = t.otherKept)
    (h8 : s.chinaCIDRsSaved = t.chinaCIDRsSaved) : s = t := by
  cases s
  cases t
  simp only [FilterStats.mk.injEq]
  exact ⟨h1, h2, h3, h4, h5, h6, h7, h8⟩

theorem parallel_components (ranges : List IPRange) (nw cs : Nat)
    (arrival : List Nat) (h1 : 1 ≤ nw)
    (hperm : List.Perm arrival (List.range nw)) :
    ((arrival.map (fun i => FilterRanges (chunkAt ranges nw cs i))).foldl
        (fun acc res => (acc.1 ++ res.1, acc.2.1 ++ res.2.1, addStats acc.2.2 res.2.2))
        ([], [], ⟨ranges.length, 0, 0, 0, 0, 0, 0, 0⟩)).2.2 =
      (FilterRanges ranges).2.2 ∧
    List.Perm ((arrival.map (fun i => FilterRanges (chunkAt ranges nw cs i))).foldl
        (fun acc res => (acc.1 ++ res.1, acc.2.1 ++ res.2.1, addStats acc.2.2 res.2.2))
        ([], [], ⟨ranges.length, 0, 0, 0, 0, 0, 0, 0⟩)).1 (FilterRanges ranges).1 ∧
    List.Perm ((arrival.map (fun i => FilterRanges (chunkAt ranges nw cs i))).foldl
        (fun acc res => (acc.1 ++ res.1, acc.2.1 ++ res.2.1, addStats acc.2.2 res.2.2))
        ([], [], ⟨ranges.length, 0, 0, 0, 0, 0, 0, 0⟩)).2.1 (FilterRanges ranges).2.1 ∧
    (arrival = List.range nw →
      (arrival.map (fun i => FilterRanges (chunkAt ranges nw cs i))).foldl
        (fun acc res => (acc.1 ++ res.1, acc.2.1 ++ res.2.1, addStats acc.2.2 res.2.2))
        ([], [], ⟨ranges.length, 0, 0, 0, 0, 0, 0, 0⟩) = FilterRanges ranges) := by
  have hm1 : ∀ l : List Nat,
      (l.map (fun i => FilterRanges (chunkAt ranges nw cs i))).map (fun p => p.1) =
        l.map (fun i => (chunkAt ranges nw cs i).filter
          (fun r => !IsMainlandChina r.info &&
            !IsPrivateOrReserved r.v4 r.startVal r.endVal)) := by
    intro l
    rw [List.map_map]
    apply List.map_congr_left
    intro i _
    show (filterRangesCore (chunkAt ranges nw cs i)).1 = _
    exact filterRangesCore_fst _
  have hm2 : ∀ l : List Nat,
      (l.map (fun i => FilterRanges (chunkAt ranges nw cs i))).map (fun p => p.2.1) =
        l.map (fun i => (chunkAt ranges nw cs i).filter
          (fun r => IsMainlandChina r.info &&
            !IsPrivateOrReserved r.v4 r.startVal r.endVal)) := by
    intro l
    rw [List.map_map]
    apply List.map_congr_left
    intro i _
    show (filterRangesCore (chunkAt ranges nw cs i)).2.1 = _
    exact filterRangesCore_snd _
  have hseq1 : (FilterRanges ranges).1 =
      ranges.filter (fun r => !IsMainlandChina r.info &&
        !IsPrivateOrReserved r.v4 r.startVal r.endVal) := filterRangesCore_fst ranges
  have hseq2 : (FilterRanges ranges).2.1 =
      ranges.filter (fun r => IsMainlandChina r.info &&
        !IsPrivateOrReserved r.v4 r.startVal r.endVal) := filterRangesCore_snd ranges
  have hflat1 : ((List.range nw).map (fun i => (chunkAt ranges nw cs i).filter
      (fun r => !IsMainlandChina r.info &&
        !IsPrivateOrReserved r.v4 r.startVal r.endVal))).flatten =
      (FilterRanges ranges).1 := by
    rw [hseq1]
    exact flatten_chunks_filter ranges nw cs h1 _
  have hflat2 : ((List.range nw).map (fun i => (chunkAt ranges nw cs i).filter
      (fun r => IsMainlandChina r.info &&
        !IsPrivateOrReserved r.v4 r.startVal r.endVal))).flatten =
      (FilterRanges ranges).2.1 := by
    rw [hseq2]
    exact flatten_chunks_filter ranges nw cs h1 _
  rw [collectFold]
  have hstats : (⟨ranges.length,
      0 + ((arrival.map (fun i => FilterRanges (chunkAt ranges nw cs i))).map
        (fun p => p.2.2.chinaFiltered)).sum,
      0 + ((arrival.map (fun i => FilterRanges (chunkAt ranges nw cs i))).map
        (fun p => p.2.2.privateFiltered)).sum,
      0 + ((arrival.map (fun i => FilterRanges (chunkAt ranges nw cs i))).map
        (fun p => p.2.2.hongKongKept)).sum,
      0 + ((arrival.map (fun i => FilterRanges (chunkAt ranges nw cs i))).map
        (fun p => p.2.2.macaoKept)).sum,
      0 + ((arrival.map (fun i => FilterRanges (chunkAt ranges nw cs i))).map
        (fun p => p.2.2.taiwanKept)).sum,
      0 + ((arrival.map (fun i => FilterRanges (chunkAt ranges nw cs i))).map
        (fun p => p.2.2.otherKept)).sum,
      0 + ((arrival.map (fun i => FilterRanges (chunkAt ranges nw cs i))).map
        (fun p => p.2.2.chinaCIDRsSaved)).sum⟩ : FilterStats) =
      (FilterRanges ranges).2.2 := by
    have hcount := filterRangesCore_counts ranges
    apply statsExt
    · rfl
    · show 0 + _ = (filterRangesCore ranges).2.2.chinaFiltered
      rw [hcount.2.2.1, Nat.zero_add, List.map_map]
      have : (arrival.map ((fun p : List IPRange × List IPRange × FilterStats =>
          p.2.2.chinaFiltered) ∘ (fun i => FilterRanges (chunkAt ranges nw cs i)))) =
          arrival.map (fun i => ((chunkAt ranges nw cs i).map
            (fun r => if IsMainlandChina r.info then 1 else 0)).sum) := by
        apply List.map_congr_left
        intro i _
        show (filterRangesCore (chunkAt ranges nw cs i)).2.2.chinaFiltered = _
        exact (filterRangesCore_counts _).2.2.1
      rw [this, List.Perm.sum_eq (hperm.map _), flatten_chunks_sum ranges nw cs h1]
    · show 0 + _ = (filterRangesCore ranges).2.2.privateFiltered
      rw [hcount.2.2.2.1, Nat.zero_add, List.map_map]
      have : (arrival.map ((fun p : List IPRange × List IPRange × FilterStats =>
          p.2.2.privateFiltered) ∘ (fun i => FilterRanges (chunkAt ranges nw cs i)))) =
          arrival.map (fun i => ((chunkAt ranges nw cs i).map
            (fun r => if IsMainlandChina r.info = false ∧
              IsPrivateOrReserved r.v4 r.startVal r.endVal = true then 1 else 0)).sum) := by
        apply List.map_congr_left
        intro i _
        show (filterRangesCore (chunkAt ranges nw cs i)).2.2.privateFiltered = _
        exact (filterRangesCore_counts _).2.2.2.1
      rw [this, List.Perm.sum_eq (hperm.map _), flatten_chunks_sum ranges nw cs h1]
    · show 0 + _ = (filterRangesCore ranges).2.2.hongKongKept
      rw [hcount.2.2.2.2.1, Nat.zero_add, List.map_map]
      have : (arrival.map ((fun p : List IPRange × List IPRange × FilterStats =>
          p.2.2.hongKongKept) ∘ (fun i => FilterRanges (chunkAt ranges nw cs i)))) =
          arrival.map (fun i => ((chunkAt ranges nw cs i).map
            (fun r => if IsMainlandChina r.info = false ∧
              isHongKong r.info = true then 1 else 0)).sum) := by
        apply List.map_congr_left
        intro i _
        show (filterRangesCore (chunkAt ranges nw cs i)).2.2.hongKongKept = _
        exact (filterRangesCore_counts _).2.2.2.2.1
      rw [this, List.Perm.sum_eq (hperm.map _), flatten_chunks_sum ranges nw cs h1]
    · show 0 + _ = (filterRangesCore ranges).2.2.macaoKept
      rw [hcount.2.2.2.2.2.1, Nat.zero_add, List.map_map]
      have : (arrival.map ((fun p : List IPRange × List IPRange × FilterStats =>
          p.2.2.macaoKept) ∘ (fun i => FilterRanges (chunkAt ranges nw cs i)))) =
          arrival.map (fun i => ((chunkAt ranges nw cs i).map
            (fun r => if IsMainlandChina r.info = false ∧ isHongKong r.info = false ∧
              isMacao r.info = true then 1 else 0)).sum) := by
        apply List.map_congr_left
        intro i _
        show (filterRangesCore (chunkAt ranges nw cs i)).2.2.macaoKept = _
        exact (filterRangesCore_counts _).2.2.2.2.2.1
      rw [this, List.Perm.sum_eq (hperm.map _), flatten_chunks_sum ranges nw cs h1]
    · show 0 + _ = (filterRangesCore ranges).2.2.taiwanKept
      rw [hcount.2.2.2.2.2.2.1, Nat.zero_add, List.map_map]
      have : (arrival.map ((fun p : List IPRange × List IPRange × FilterStats =>
          p.2.2.taiwanKept) ∘ (fun i => FilterRanges (chunkAt ranges nw cs i)))) =
          arrival.map (fun i => ((chunkAt ranges nw cs i).map
            (fun r => if IsMainlandChina r.info = false ∧ isHongKong r.info = false ∧
              isMacao r.info = false ∧ isTaiwan r.info = true then 1 else 0)).sum) := by
        apply List.map_congr_left
        intro i _
        show (filterRangesCore (chunkAt ranges nw cs i)).2.2.taiwanKept = _
        exact (filterRangesCore_counts _).2.2.2.2.2.2.1
      rw [this, List.Perm.sum_eq (hperm.map _), flatten_chunks_sum ranges nw cs h1]
    · show 0 + _ = (filterRangesCore ranges).2.2.otherKept
      rw [hcount.2.2.2.2.2.2.2, Nat.zero_add, List.map_map]
      have : (arrival.map ((fun p : List IPRange × List IPRange × FilterStats =>
          p.2.2.otherKept) ∘ (fun i => FilterRanges (chunkAt ranges nw cs i)))) =
          arrival.map (fun i => ((chunkAt ranges nw cs i).map
            (fun r => if IsMainlandChina r.info = false ∧ isHongKong r.info = false ∧
              isMacao r.info = false ∧ isTaiwan r.info = false then 1 else 0)).sum) := by
        apply List.map_congr_left
        intro i _
        show (filterRangesCore (chunkAt ranges nw cs i)).2.2.otherKept = _
        exact (filterRangesCore_counts _).2.2.2.2.2.2.2
      rw [this, List.Perm.sum_eq (hperm.map _), flatten_chunks_sum ranges nw cs h1]
    · show 0 + _ = (filterRangesCore ranges).2.1.length
      rw [filterRangesCore_snd ranges, Nat.zero_add, List.map_map]
      have : (arrival.map ((fun p : List IPRange × List IPRange × FilterStats =>
          p.2.2.chinaCIDRsSaved) ∘ (fun i => FilterRanges (chunkAt ranges nw cs i)))) =
          arrival.map (fun i => ((chunkAt ranges nw cs i).filter
            (fun r => IsMainlandChina r.info &&
              !IsPrivateOrReserved r.v4 r.startVal r.endVal)).length) := by
        apply List.map_congr_left
        intro i _
        show (filterRangesCore (chunkAt ranges nw cs i)).2.1.length = _
        rw [filterRangesCore_snd]
      rw [this, List.Perm.sum_eq (hperm.map _), flatten_chunks_filter_length ranges nw cs h1]
  have hp1 : List.Perm ((arrival.map (fun i => FilterRanges (chunkAt ranges nw cs i))).map
      (fun p => p.1)).flatten (FilterRanges ranges).1 := by
    rw [hm1]
    have := (hperm.map (fun i => (chunkAt ranges nw cs i).filter
        (fun r => !IsMainlandChina r.info &&
          !IsPrivateOrReserved r.v4 r.startVal r.endVal))).flatten
    rw [hflat1] at this
    exact this
  have hp2 : List.Perm ((arrival.map (fun i => FilterRanges (chunkAt ranges nw cs i))).map
      (fun p => p.2.1)).flatten (FilterRanges ranges).2.1 := by
    rw [hm2]
    have := (hperm.map (fun i => (chunkAt ranges nw cs i).filter
        (fun r => IsMainlandChina r.info &&
          !IsPrivateOrReserved r.v4 r.startVal r.endVal))).flatten
    rw [hflat2] at this
    exact this
  refine ⟨hstats, hp1, hp2, ?_⟩
  intro harr
  refine Prod.ext_iff.mpr ⟨?_, Prod.ext_iff.mpr ⟨?_, hstats⟩⟩
  · show ((arrival.map (fun i => FilterRanges (chunkAt ranges nw cs i))).map
      (fun p => p.1)).flatten = (FilterRanges ranges).1
    subst harr
    rw [hm1]
    exact hflat1
  · show ((arrival.map (fun i => FilterRanges (chunkAt ranges nw cs i))).map
      (fun p => p.2.1)).flatten = (FilterRanges ranges).2.1
    subst harr
    rw [hm2]
    exact hflat2

/-- C7 amended: for every schedule (permutation `arrival` of the worker
indices), `FilterRangesParallel` returns exactly the same statistics as
sequential `FilterRanges`, and filtered / china lists with the same
elements up to the arrival permutation of chunk blocks; the lists are
identical (same elements in the same order) when results arrive in
original index order. -/
theorem FilterRangesParallel_equiv (w : Nat) (arrival : List Nat)
    (ranges : List IPRange) (hw : 1 ≤ w)
    (hperm : List.Perm arrival (List.range (min w ranges.length))) :
    (FilterRangesParallel w arrival ranges).2.2 = (FilterRanges ranges).2.2 ∧
    List.Perm (FilterRangesParallel w arrival ranges).1 (FilterRanges ranges).1 ∧
    List.Perm (FilterRangesParallel w arrival ranges).2.1 (FilterRanges ranges).2.1 ∧
    (arrival = List.range (min w ranges.length) →
      FilterRangesParallel w arrival ranges = FilterRanges ranges) := by
  by_cases hemp : ranges.isEmpty
  · have hnil : ranges = [] := by
      cases ranges with
      | nil => rfl
      | cons a l => simp at hemp
    subst hnil
    have harr : arrival = [] := by
      apply List.perm_nil.mp
      simpa using hperm
    subst harr
    exact ⟨rfl, List.Perm.refl _, List.Perm.refl _, fun _ => rfl⟩
  · have hne : ranges.isEmpty = false := Bool.eq_false_iff.mpr hemp
    have hlen : 1 ≤ ranges.length := by
      cases ranges with
      | nil => simp at hne
      | cons a l => simp
    have hnw1 : 1 ≤ min w ranges.length := by omega
    rw [FilterRangesParallel_pos w arrival ranges hne hw]
    exact parallel_components ranges (min w ranges.length)
      (ranges.length / min w ranges.length) arrival hnw1 hperm

/-- Witness for C7's amended claim: with two workers and in-order
arrival, the parallel filter coincides with the sequential filter on the
concrete two-range input. -/
theorem FilterRangesParallel_equiv_witness :
    FilterRangesParallel 2 [0, 1] exPar = FilterRanges exPar :=
  (FilterRangesParallel_equiv 2 [0, 1] exPar (by norm_num) (by decide)).2.2.2
    (by decide)
